import Mathlib

/-!
# neon-contents-grapple: the pattern search engine of `main.go`

A shallow embedding of `Find`, `find_it`, `stringInSlice` and `v1_find`.

* The bolt store is a tree of buckets; a read transaction sees one snapshot of it.
* `Find` starts a producer goroutine, 512 `find_it` workers and a closer goroutine and
  then collects results.  The goroutines are modelled as one transition system: a
  `Label` names the goroutine that takes its next atomic step, `step` performs it, and
  a schedule is a list of labels.  What `Find` does is what it does on every schedule.
* Libraries that are imported by `main.go` (the glob matcher, the JSON string encoder)
  are parameters of the model, collected in `Lib`.
-/

set_option linter.dupNamespace false

namespace Grapple

/-! ## Go maps -/

/-- A Go `map[string]V`: its entries, kept in ascending key order (the order in which
`encoding/json` writes them), so that equal maps are equal lists. -/
abbrev GoMap (V : Type) := List (String × V)

/-- The statement `m[k] = v`. -/
def GoMap.assign {V : Type} (m : GoMap V) (k : String) (v : V) : GoMap V :=
  match m with
  | [] => [(k, v)]
  | (k', v') :: rest =>
    if k.data < k'.data then (k, v) :: (k', v') :: rest
    else if k = k' then (k, v) :: rest
    else (k', v') :: GoMap.assign rest k v

/-- The expression `m[k]` with its presence flag (`v, ok := m[k]`). -/
def GoMap.index {V : Type} (m : GoMap V) (k : String) : Option V :=
  match m with
  | [] => none
  | (k', v') :: rest => if k' = k then some v' else GoMap.index rest k

/-! ## The bolt store -/

/-- What a key of a bolt bucket holds: a plain value or a nested bucket. -/
inductive Node where
  | value (v : String)
  | bucket (entries : List (String × Node))

/-- A `*bolt.Bucket`: its keys, in the store's iteration order, with what they hold. -/
abbrev Bucket := List (String × Node)

/-- The keys that `b.ForEach` visits, in order. -/
def Bucket.keys (b : Bucket) : List String := b.map Prod.fst

/-- What the key `name` holds in `b`, if `b` has that key. -/
def Bucket.lookup (b : Bucket) (name : String) : Option Node :=
  match b with
  | [] => none
  | (k, n) :: rest => if k = name then some n else Bucket.lookup rest name

/-- The call `b.Bucket(name)`: the nested bucket, or nil (`none`) when the key is missing
or holds a plain value. -/
def Bucket.Bucket (b : Bucket) (name : String) : Option Bucket :=
  match Bucket.lookup b name with
  | some (Node.bucket entries) => some entries
  | _ => none

/-- A read transaction `*bolt.Tx`: a snapshot of the root bucket. -/
structure Tx where
  root : Bucket

/-- The call `tx.Bucket(name)`. -/
def Tx.Bucket (tx : Tx) (name : String) : Option Bucket := Bucket.Bucket tx.root name

/-- The store as `boltDb.View` meets it: the transaction cannot be begun and View
returns an error, or the function runs on a snapshot. -/
inductive DB where
  | failing (err : String)
  | serving (tx : Tx)

/-! ## Imported libraries -/

/-- The library functions that `main.go` calls and that are not part of the repository's
source: `fnmatch.Match(pattern, s, flags)` and the JSON encoding of one string. -/
structure Lib where
  Match : String → String → Int → Bool
  jsonString : String → String

/-! ## find_it and Find -/

/-- The struct `FindAction`. -/
structure FindAction where
  bucket : Bucket
  path : String

/-- The struct `FindResult`. -/
structure FindResult where
  path : String
  packages : List String
deriving DecidableEq, Repr

/-- Where one `find_it` goroutine stands. -/
inductive Worker where
  /-- blocked in `for action := range input` -/
  | ranging
  /-- holds a received action, before `fnmatch.Match` -/
  | matching (action : FindAction)
  /-- blocked in `output <- &FindResult{...}` -/
  | sending (result : FindResult)
  /-- the loop is over and the deferred `wg.Done()` has run -/
  | exited

/-- Where the producer goroutine (`b.ForEach(...)` then `close(input)`) stands. -/
inductive Producer where
  /-- before `b.ForEach` -/
  | start
  /-- inside `ForEach`, with the paths still to be sent on `input` -/
  | sending (rest : List String)
  /-- after `close(input)` -/
  | finished
deriving DecidableEq, Repr

/-- Where the goroutine `findWg.Wait(); close(output)` stands. -/
inductive Closer where
  /-- not started yet -/
  | absent
  /-- in `findWg.Wait()` -/
  | waiting
  /-- after `close(output)` -/
  | closed
deriving DecidableEq, Repr

/-- Where the function passed to `View` stands. -/
inductive Main where
  /-- in the loop `for i := 0; i < 512; i++` -/
  | spawning
  /-- in `for result := range output` -/
  | collecting
  /-- the function has returned nil -/
  | returned
deriving DecidableEq, Repr

/-- The state of one call of `Find` inside `View`. -/
structure State where
  /-- the result map `m` -/
  m : GoMap (List String)
  producer : Producer
  /-- the `find_it` goroutines started so far -/
  workers : List Worker
  /-- the counter of `findWg` -/
  findWg : Nat
  /-- the buffer of the channel `output` -/
  output : List FindResult
  closer : Closer
  main : Main
  /-- the panic that stopped the process, if any -/
  panic : Option String

/-- The number of `find_it` goroutines that `Find` starts. -/
def workerCount : Nat := 512

/-- The capacity of the channel `output`. -/
def outputCap : Nat := 2048

/-- The state in which the function passed to `View` starts: `m` is empty and only the
producer goroutine is about to be started. -/
def State.init : State :=
  { m := [], producer := Producer.start, workers := [], findWg := 0, output := [],
    closer := Closer.absent, main := Main.spawning, panic := none }

/-- The panic of a method called on a nil `*bolt.Bucket`. -/
def nilBucket : String := "invalid memory address or nil pointer dereference"

/-- The panic of a send on a closed channel. -/
def closedChannel : String := "send on closed channel"

/-- The atomic steps of the goroutines of `Find`. -/
inductive Label where
  /-- main: `findWg.Add(1); go find_it(...)` -/
  | spawn
  /-- main: leave the loop and start the closer goroutine -/
  | startCloser
  /-- producer: enter `b.ForEach` -/
  | forEach
  /-- producer sends the next path on the unbuffered `input`, worker `i` receives it -/
  | recv (i : Nat)
  /-- producer: `close(input)` -/
  | closeInput
  /-- worker `i`: `fnmatch.Match`, and for a match the read of the sub-bucket -/
  | compute (i : Nat)
  /-- worker `i`: `output <- result` -/
  | send (i : Nat)
  /-- worker `i`: `range input` ends, `wg.Done()` -/
  | exit (i : Nat)
  /-- closer: `findWg.Wait()` returns, `close(output)` -/
  | closeOutput
  /-- main: one turn of `for result := range output` -/
  | collect
  /-- main: `range output` ends, `return nil` -/
  | finish
deriving DecidableEq, Repr

/-- The body of the loop of `find_it` for one received action, up to the send. -/
def find_it_body (lib : Lib) (pattern : String) (i : Nat) (a : FindAction) (s : State) : State :=
  if lib.Match pattern a.path 0 then
    match Bucket.Bucket a.bucket a.path with
    | none => { s with panic := some nilBucket }
    | some subBucket =>
      { s with workers := s.workers.set i (Worker.sending ⟨a.path, Bucket.keys subBucket⟩) }
  else { s with workers := s.workers.set i Worker.ranging }

/-- One atomic step of the goroutine named by the label, `none` when that goroutine is
blocked, absent or elsewhere in its code.  `b` is `tx.Bucket([]byte(archive))`. -/
def step (lib : Lib) (b : Option Bucket) (pattern : String) (s : State) (l : Label) :
    Option State :=
  if s.panic ≠ none then none else
  match l with
  | Label.spawn =>
    if s.main = Main.spawning ∧ s.workers.length < workerCount then
      some { s with workers := s.workers ++ [Worker.ranging], findWg := s.findWg + 1 }
    else none
  | Label.startCloser =>
    if s.main = Main.spawning ∧ ¬ s.workers.length < workerCount then
      some { s with closer := Closer.waiting, main := Main.collecting }
    else none
  | Label.forEach =>
    match s.producer, b with
    | Producer.start, none => some { s with panic := some nilBucket }
    | Producer.start, some bk => some { s with producer := Producer.sending (Bucket.keys bk) }
    | _, _ => none
  | Label.recv i =>
    match s.producer, b, s.workers[i]? with
    | Producer.sending (path :: rest), some bk, some Worker.ranging =>
      some { s with producer := Producer.sending rest,
                    workers := s.workers.set i (Worker.matching ⟨bk, path⟩) }
    | _, _, _ => none
  | Label.closeInput =>
    match s.producer with
    | Producer.sending [] => some { s with producer := Producer.finished }
    | _ => none
  | Label.compute i =>
    match s.workers[i]? with
    | some (Worker.matching a) => some (find_it_body lib pattern i a s)
    | _ => none
  | Label.send i =>
    match s.workers[i]? with
    | some (Worker.sending r) =>
      if s.closer = Closer.closed then some { s with panic := some closedChannel }
      else if s.output.length < outputCap then
        some { s with output := s.output ++ [r], workers := s.workers.set i Worker.ranging }
      else none
    | _ => none
  | Label.exit i =>
    match s.workers[i]? with
    | some Worker.ranging =>
      if s.producer = Producer.finished then
        some { s with workers := s.workers.set i Worker.exited, findWg := s.findWg - 1 }
      else none
    | _ => none
  | Label.closeOutput =>
    if s.closer = Closer.waiting ∧ s.findWg = 0 then some { s with closer := Closer.closed }
    else none
  | Label.collect =>
    if s.main = Main.collecting then
      match s.output with
      | result :: rest =>
        some { s with m := GoMap.assign s.m result.path result.packages, output := rest }
      | [] => none
    else none
  | Label.finish =>
    if s.main = Main.collecting ∧ s.output = [] ∧ s.closer = Closer.closed then
      some { s with main := Main.returned }
    else none

/-- The state after the steps of a schedule, `none` when one of them cannot be taken. -/
def run (lib : Lib) (b : Option Bucket) (pattern : String) : State → List Label → Option State
  | s, [] => some s
  | s, l :: ls =>
    match step lib b pattern s l with
    | none => none
    | some s' => run lib b pattern s' ls

/-- How a call stands after a schedule. -/
inductive Outcome (α : Type) where
  /-- the call has returned this value -/
  | returned (a : α)
  /-- the process has panicked -/
  | panicked (msg : String)
  /-- goroutines of the call are still at work or blocked -/
  | running
deriving DecidableEq, Repr

/-- What the state of `Find` amounts to for its caller. -/
def State.outcome (s : State) : Outcome (GoMap (List String)) :=
  match s.panic with
  | some msg => Outcome.panicked msg
  | none => if s.main = Main.returned then Outcome.returned s.m else Outcome.running

/-- The call `boltDb.View(fn)`: when the read transaction cannot be begun, View returns the
error and `fn` does not run; otherwise `fn` runs on the snapshot (the function that `Find`
passes always returns nil). -/
def DB.View {α : Type} (db : DB) (fn : Tx → α) : Except String α :=
  match db with
  | DB.failing err => Except.error err
  | DB.serving tx => Except.ok (fn tx)

/-- The function `Find(archive, pattern)` under a schedule of its goroutines; `none` when
the list of labels is not a schedule (a step of it cannot be taken).  The function passed
to `View` opens the bucket and runs the goroutines; after `View`, an error is a panic
(`if err != nil { panic(err) }`), and otherwise `m` is returned. -/
def Find (lib : Lib) (db : DB) (archive pattern : String) (sched : List Label) :
    Option (Outcome (GoMap (List String))) :=
  match DB.View db fun tx => run lib (Tx.Bucket tx archive) pattern State.init sched with
  | Except.error err => some (Outcome.panicked err)
  | Except.ok reached => reached.map State.outcome

/-! ## The HTTP handler -/

/-- The function `stringInSlice`. -/
def stringInSlice (a : String) : List String → Bool
  | [] => false
  | b :: list => if b = a then true else stringInSlice a list

/-- The function `strings.TrimPrefix`: `s` without the leading `pre`, or `s` itself when
it does not start with `pre`. -/
def strings.TrimPrefix (s pre : String) : String :=
  if pre.data.isPrefixOf s.data then String.mk (s.data.drop pre.data.length) else s

/-- The database object `db`: the bolt store and the method `GetKeys`, whose source is not
part of `main.go` and is taken as given. -/
structure Database where
  bolt : DB
  GetKeys : String → List String

/-- What the handler reads from the `*gin.Context`: `c.Param("archive")` and
`c.Query("q")`. -/
structure Context where
  archive : String
  q : String

/-- What `c.JSON(status, obj)` writes. -/
structure Response where
  status : Nat
  body : String
deriving DecidableEq, Repr

/-- The JSON text of the empty object, an opening and a closing brace. -/
def emptyObject : String := "\x7b\x7d"

/-- The JSON text of a Go map whose values are already encoded. -/
def jsonObject (fields : List (String × String)) : String :=
  "\x7b" ++ ",".intercalate (fields.map fun kv => kv.1 ++ ":" ++ kv.2) ++ "\x7d"

/-- The JSON text of a `[]string`; the nil slice, which is what `find_it` leaves for a
sub-bucket without keys, is written `null`. -/
def jsonStrings (lib : Lib) (xs : List String) : String :=
  match xs with
  | [] => "null"
  | _ => "[" ++ ",".intercalate (xs.map lib.jsonString) ++ "]"

/-- The JSON text of a `map[string]string`. -/
def jsonStringMap (lib : Lib) (m : GoMap String) : String :=
  jsonObject (m.map fun kv => (lib.jsonString kv.1, lib.jsonString kv.2))

/-- The JSON text of a `map[string][]string`. -/
def jsonFindMap (lib : Lib) (m : GoMap (List String)) : String :=
  jsonObject (m.map fun kv => (lib.jsonString kv.1, jsonStrings lib kv.2))

/-- What one request to `v1_find` did: how the handler stands, and the calls of `Find` it
made, as (archive, pattern). -/
structure Handled where
  outcome : Option (Outcome Response)
  finds : List (String × String)
deriving DecidableEq, Repr

/-- The call `c.JSON(http.StatusOK, Find(archive, query))`: the response once `Find` has
returned; a panic of `Find` is a panic of the handler. -/
def respond (lib : Lib) (o : Outcome (GoMap (List String))) : Outcome Response :=
  match o with
  | Outcome.returned m => Outcome.returned ⟨200, jsonFindMap lib m⟩
  | Outcome.panicked msg => Outcome.panicked msg
  | Outcome.running => Outcome.running

/-- The handler `v1_find`, under a schedule for the goroutines of `Find`. -/
def v1_find (lib : Lib) (db : Database) (c : Context) (sched : List Label) : Handled :=
  let query := c.q
  let archive := strings.TrimPrefix c.archive "/"
  if ¬ stringInSlice archive (db.GetKeys "archives") then
    { outcome := some (Outcome.returned ⟨200, jsonStringMap lib []⟩), finds := [] }
  else
    { outcome := (Find lib db.bolt archive query sched).map (respond lib),
      finds := [(archive, query)] }

/-! ## What the goroutines still owe, and the result of a sequential run -/

/-- The result that `find_it` sends for an action: none when the path does not match (or
holds no sub-bucket, where `find_it` panics instead). -/
def resultOf (lib : Lib) (pattern : String) (a : FindAction) : Option FindResult :=
  if lib.Match pattern a.path 0 then
    (Bucket.Bucket a.bucket a.path).map fun subBucket => ⟨a.path, Bucket.keys subBucket⟩
  else none

/-- The results for a list of paths of the bucket `b`, in the order of the paths. -/
def resultsFor (lib : Lib) (b : Bucket) (pattern : String) (paths : List String) :
    List FindResult :=
  paths.filterMap fun path => resultOf lib pattern ⟨b, path⟩

/-- The results that the workers emit for the bucket `b`, in the store's iteration order. -/
def emitted (lib : Lib) (b : Bucket) (pattern : String) : List FindResult :=
  resultsFor lib b pattern (Bucket.keys b)

/-- The collection loop `m[result.path] = result.packages` over a list of results. -/
def collectResults (m : GoMap (List String)) (rs : List FindResult) : GoMap (List String) :=
  rs.foldl (fun acc r => GoMap.assign acc r.path r.packages) m

/-- The results a worker has in hand and has not sent yet. -/
def Worker.pending (lib : Lib) (pattern : String) : Worker → List FindResult
  | Worker.matching a => (resultOf lib pattern a).toList
  | Worker.sending r => [r]
  | _ => []

/-- The results of all workers that are not sent yet. -/
def pendingOf (lib : Lib) (pattern : String) : List Worker → List FindResult
  | [] => []
  | w :: ws => Worker.pending lib pattern w ++ pendingOf lib pattern ws

/-- The results for the paths that the producer has not handed out yet. -/
def Producer.pending (lib : Lib) (b : Bucket) (pattern : String) : Producer → List FindResult
  | Producer.start => emitted lib b pattern
  | Producer.sending rest => resultsFor lib b pattern rest
  | Producer.finished => []

/-- A worker counts 1 in `findWg` from its `Add(1)` to its `Done()`. -/
def Worker.alive : Worker → Nat
  | Worker.exited => 0
  | _ => 1

/-- The steps a worker has before it, counted generously. -/
def Worker.weight : Worker → Nat
  | Worker.ranging => 1
  | Worker.matching _ => 4
  | Worker.sending _ => 3
  | Worker.exited => 0

/-- The steps the producer has before it, for a bucket of `n` keys. -/
def Producer.weight (n : Nat) : Producer → Nat
  | Producer.start => 4 * n + 2
  | Producer.sending rest => 4 * rest.length + 1
  | Producer.finished => 0

/-- The steps the main goroutine has before it, apart from those that depend on others. -/
def Main.weight : Main → Nat
  | Main.spawning => 3
  | Main.collecting => 1
  | Main.returned => 0

/-- The steps the closer goroutine has before it. -/
def Closer.weight : Closer → Nat
  | Closer.absent => 2
  | Closer.waiting => 1
  | Closer.closed => 0

/-- The number of keys that `ForEach` will visit. -/
def keyCount (b : Option Bucket) : Nat :=
  match b with
  | none => 0
  | some bk => (Bucket.keys bk).length

/-- A bound on the number of steps that can still be taken from a state. -/
def State.measure (b : Option Bucket) (s : State) : Nat :=
  (if s.panic = none then 1 else 0) + Producer.weight (keyCount b) s.producer
    + (s.workers.map Worker.weight).sum + 2 * (workerCount - s.workers.length)
    + s.output.length + Main.weight s.main + Closer.weight s.closer

/-- What holds in every state that `Find` reaches on an existing bucket `b`. -/
structure Inv (lib : Lib) (b : Bucket) (pattern : String) (s : State) : Prop where
  /-- the counter of `findWg` is the number of workers that have not exited -/
  wg : s.findWg = (s.workers.map Worker.alive).sum
  /-- at most 512 workers are started -/
  len : s.workers.length ≤ workerCount
  /-- the closer is started when main leaves the loop, not before -/
  early : s.main = Main.spawning → s.closer = Closer.absent
  /-- main leaves the loop after 512 workers are started, and starts the closer -/
  late : s.main ≠ Main.spawning → s.workers.length = workerCount ∧ s.closer ≠ Closer.absent
  /-- the channel `output` is closed after `findWg` has reached zero -/
  closed : s.closer = Closer.closed → s.findWg = 0
  /-- a worker exits after `input` is closed -/
  exits : Worker.exited ∈ s.workers → s.producer = Producer.finished
  /-- main returns after `output` is closed and drained -/
  done : s.main = Main.returned → s.output = [] ∧ s.closer = Closer.closed
  /-- the actions in the hands of workers are paths of `b` -/
  held : ∀ a, Worker.matching a ∈ s.workers → a.bucket = b ∧ a.path ∈ Bucket.keys b
  /-- the paths still to be sent are paths of `b` -/
  todo : ∀ rest, s.producer = Producer.sending rest → ∀ p ∈ rest, p ∈ Bucket.keys b
  /-- the results read so far, those in `output`, those in the hands of workers and those
  of the paths not yet handed out are, together, the emitted results -/
  results : ∃ collected, s.m = collectResults [] collected ∧
    List.Perm (collected ++ s.output ++ pendingOf lib pattern s.workers
      ++ Producer.pending lib b pattern s.producer) (emitted lib b pattern)

/-- What holds in every state that `Find` reaches when the bucket is nil. -/
structure InvNil (s : State) : Prop where
  /-- the producer never gets past `ForEach` -/
  producer : s.producer = Producer.start
  /-- no worker receives anything or exits -/
  idle : ∀ w ∈ s.workers, w = Worker.ranging
  /-- the counter of `findWg` is the number of workers -/
  wg : s.findWg = s.workers.length
  /-- at most 512 workers are started -/
  len : s.workers.length ≤ workerCount
  /-- the closer is started after 512 workers are -/
  waits : s.closer ≠ Closer.absent → s.workers.length = workerCount
  /-- the channel `output` stays open -/
  opened : s.closer ≠ Closer.closed
  /-- main does not return -/
  going : s.main ≠ Main.returned
  /-- the only panic is the nil dereference -/
  panic : s.panic = none ∨ s.panic = some nilBucket

/-! ## The glob matcher -/

namespace fnmatch

/-- Where the matcher stands in the pattern. -/
inductive Mode where
  /-- outside a bracket expression -/
  | top
  /-- after a backslash: the next character stands for itself -/
  | esc
  /-- inside a bracket expression that is tested against the character `sc`: `fresh`
  right after the opening bracket, `negate` after a leading `!` or `^`, `matched` once a
  member equal to `sc` was seen, `last` the member that a `-` would make a range of -/
  | cls (fresh negate matched : Bool) (sc : Char) (last : Option Char)
  /-- after a backslash inside a bracket expression -/
  | clsEsc (negate matched : Bool) (sc : Char)
  /-- after `lo-` inside a bracket expression -/
  | range (negate matched : Bool) (sc : Char) (lo : Char)

/-- Whether `f` accepts some suffix of `s`: what a `*` asks of the rest of the pattern. -/
def anySuffix (f : List Char → Bool) : List Char → Bool
  | [] => f []
  | c :: s => f (c :: s) || anySuffix f s

/-- Modelled from the spec: the matching loop of `fnmatch.Match` for flags 0; the package
`github.com/danwakefield/fnmatch` is imported by `main.go` and its source is not part of
the repository.  The spec asks for a shell-style glob (`*`, `?`, bracket classes), matched
against the full string, case-sensitive and anchored.  Here `*` takes any run of
characters, `?` any one character, `[...]` one character of the class (members, ranges
`a-z`, negated by a leading `!` or `^`), a backslash makes the next character stand for
itself, every other character stands for itself, and the pattern must use up the whole
string.  A bracket expression that is not closed matches nothing. -/
def matchFrom : List Char → Mode → List Char → Bool
  | [], Mode.top, s => s.isEmpty
  | [], Mode.esc, s => s = ['\\']
  | [], _, _ => false
  | c :: p, Mode.top, s =>
    if c = '*' then anySuffix (matchFrom p Mode.top) s
    else if c = '\\' then matchFrom p Mode.esc s
    else
      match s with
      | [] => false
      | sc :: s' =>
        if c = '?' then matchFrom p Mode.top s'
        else if c = '[' then matchFrom p (Mode.cls true false false sc none) s'
        else sc = c && matchFrom p Mode.top s'
  | c :: p, Mode.esc, s =>
    match s with
    | [] => false
    | sc :: s' => sc = c && matchFrom p Mode.top s'
  | c :: p, Mode.cls fresh negate matched sc last, s =>
    if fresh ∧ (c = '!' ∨ c = '^') then matchFrom p (Mode.cls false true matched sc none) s
    else if c = ']' then (matched != negate) && matchFrom p Mode.top s
    else if c = '\\' then matchFrom p (Mode.clsEsc negate matched sc) s
    else
      match last with
      | some lo =>
        if c = '-' then matchFrom p (Mode.range negate matched sc lo) s
        else matchFrom p (Mode.cls false negate (matched || c = sc) sc (some c)) s
      | none => matchFrom p (Mode.cls false negate (matched || c = sc) sc (some c)) s
  | c :: p, Mode.clsEsc negate matched sc, s =>
    matchFrom p (Mode.cls false negate (matched || c = sc) sc (some c)) s
  | c :: p, Mode.range negate matched sc lo, s =>
    if c = ']' then ((matched || sc = '-') != negate) && matchFrom p Mode.top s
    else matchFrom p (Mode.cls false negate (matched || (lo ≤ sc ∧ sc ≤ c)) sc none) s
termination_by structural p => p

/-- Modelled from the spec: `fnmatch.Match(pattern, s, flags)` of the package
`github.com/danwakefield/fnmatch`, whose source is not part of the repository, as the
spec describes the matching of `Find`: the glob of `matchFrom` against the whole string.
`find_it` passes the flags 0, and no flag is modelled. -/
def Match (pattern s : String) (_flags : Int) : Bool :=
  matchFrom pattern.data Mode.top s.data

/-- The characters that the claim on literal patterns calls glob metacharacters. -/
def isMeta (c : Char) : Bool := c = '*' || c = '?' || c = '[' || c = '\\'

end fnmatch

/-- The libraries with the modelled glob matcher and a given JSON string encoder. -/
def globLib (jsonString : String → String) : Lib :=
  { Match := fnmatch.Match, jsonString := jsonString }

/-! ## The steps as rules -/

/-- The steps of `step`, one rule for each way a step can be taken. -/
inductive Step (lib : Lib) (b : Option Bucket) (pattern : String) (s : State) :
    Label → State → Prop where
  | spawn (hp : s.panic = none) (hm : s.main = Main.spawning)
      (hl : s.workers.length < workerCount) :
      Step lib b pattern s Label.spawn
        { s with workers := s.workers ++ [Worker.ranging], findWg := s.findWg + 1 }
  | startCloser (hp : s.panic = none) (hm : s.main = Main.spawning)
      (hl : ¬ s.workers.length < workerCount) :
      Step lib b pattern s Label.startCloser
        { s with closer := Closer.waiting, main := Main.collecting }
  | forEachNil (hp : s.panic = none) (hs : s.producer = Producer.start) (hb : b = none) :
      Step lib b pattern s Label.forEach { s with panic := some nilBucket }
  | forEach (bk : Bucket) (hp : s.panic = none) (hs : s.producer = Producer.start)
      (hb : b = some bk) :
      Step lib b pattern s Label.forEach { s with producer := Producer.sending (Bucket.keys bk) }
  | recv (i : Nat) (path : String) (rest : List String) (bk : Bucket) (hp : s.panic = none)
      (hs : s.producer = Producer.sending (path :: rest)) (hb : b = some bk)
      (hw : s.workers[i]? = some Worker.ranging) :
      Step lib b pattern s (Label.recv i)
        { s with producer := Producer.sending rest,
                 workers := s.workers.set i (Worker.matching ⟨bk, path⟩) }
  | closeInput (hp : s.panic = none) (hs : s.producer = Producer.sending []) :
      Step lib b pattern s Label.closeInput { s with producer := Producer.finished }
  | computeNo (i : Nat) (a : FindAction) (hp : s.panic = none)
      (hw : s.workers[i]? = some (Worker.matching a))
      (hm : lib.Match pattern a.path 0 = false) :
      Step lib b pattern s (Label.compute i) { s with workers := s.workers.set i Worker.ranging }
  | computeNil (i : Nat) (a : FindAction) (hp : s.panic = none)
      (hw : s.workers[i]? = some (Worker.matching a))
      (hm : lib.Match pattern a.path 0 = true) (hn : Bucket.Bucket a.bucket a.path = none) :
      Step lib b pattern s (Label.compute i) { s with panic := some nilBucket }
  | computeYes (i : Nat) (a : FindAction) (sub : Bucket) (hp : s.panic = none)
      (hw : s.workers[i]? = some (Worker.matching a))
      (hm : lib.Match pattern a.path 0 = true) (hn : Bucket.Bucket a.bucket a.path = some sub) :
      Step lib b pattern s (Label.compute i)
        { s with workers := s.workers.set i (Worker.sending ⟨a.path, Bucket.keys sub⟩) }
  | sendClosed (i : Nat) (r : FindResult) (hp : s.panic = none)
      (hw : s.workers[i]? = some (Worker.sending r)) (hc : s.closer = Closer.closed) :
      Step lib b pattern s (Label.send i) { s with panic := some closedChannel }
  | send (i : Nat) (r : FindResult) (hp : s.panic = none)
      (hw : s.workers[i]? = some (Worker.sending r)) (hc : s.closer ≠ Closer.closed)
      (hl : s.output.length < outputCap) :
      Step lib b pattern s (Label.send i)
        { s with output := s.output ++ [r], workers := s.workers.set i Worker.ranging }
  | exit (i : Nat) (hp : s.panic = none) (hw : s.workers[i]? = some Worker.ranging)
      (hs : s.producer = Producer.finished) :
      Step lib b pattern s (Label.exit i)
        { s with workers := s.workers.set i Worker.exited, findWg := s.findWg - 1 }
  | closeOutput (hp : s.panic = none) (hc : s.closer = Closer.waiting) (hz : s.findWg = 0) :
      Step lib b pattern s Label.closeOutput { s with closer := Closer.closed }
  | collect (r : FindResult) (rest : List FindResult) (hp : s.panic = none)
      (hm : s.main = Main.collecting) (ho : s.output = r :: rest) :
      Step lib b pattern s Label.collect
        { s with m := GoMap.assign s.m r.path r.packages, output := rest }
  | finish (hp : s.panic = none) (hm : s.main = Main.collecting) (ho : s.output = [])
      (hc : s.closer = Closer.closed) :
      Step lib b pattern s Label.finish { s with main := Main.returned }

/-! ## Stores for the examples -/

/-- A store with one archive `neon` of two paths, for the examples. -/
def sampleBucket : Bucket :=
  [("/usr/bin/ls", Node.bucket [("coreutils", Node.value "")]),
   ("/usr/lib/libfoo.so", Node.bucket [("libfoo", Node.value ""), ("libfoo-dev", Node.value "")])]

/-- The snapshot that holds `sampleBucket` as the bucket `neon`, next to `archives`. -/
def sampleTx : Tx :=
  { root := [("archives", Node.bucket [("neon", Node.value "")]),
             ("neon", Node.bucket sampleBucket)] }

/-- The bucket of the four paths of the anchoring example, in key order, with any
sub-buckets. -/
def fourPaths (e1 e2 e3 e4 : Bucket) : Bucket :=
  [("/usr/bin/ls", Node.bucket e1), ("/usr/lib/libfoo.so", Node.bucket e2),
   ("/usr/lib/libfoo.so.1", Node.bucket e3), ("/usr/local/bin/ls", Node.bucket e4)]

/-- A snapshot whose archive `neon` holds the four paths, each with one package. -/
def anchorTx : Tx :=
  { root := [("neon", Node.bucket (fourPaths [("coreutils", Node.value "")]
      [("libfoo-dev", Node.value "")] [("libfoo1", Node.value "")]
      [("mytools", Node.value "")]))] }

/-! ## Lemmas on Go maps -/

theorem data_lt_iff (a b : String) : a.data < b.data ↔ a < b := String.lt_iff_toList_lt.symm

theorem GoMap.assign_cons_lt {V : Type} (rest : GoMap V) (k k0 : String) (v v0 : V)
    (h : k < k0) : GoMap.assign ((k0, v0) :: rest) k v = (k, v) :: (k0, v0) :: rest := by
  simp [GoMap.assign, data_lt_iff, h]

theorem GoMap.assign_cons_eq {V : Type} (rest : GoMap V) (k : String) (v v0 : V) :
    GoMap.assign ((k, v0) :: rest) k v = (k, v) :: rest := by
  simp [GoMap.assign, data_lt_iff]

theorem GoMap.assign_cons_gt {V : Type} (rest : GoMap V) (k k0 : String) (v v0 : V)
    (h : k0 < k) : GoMap.assign ((k0, v0) :: rest) k v = (k0, v0) :: GoMap.assign rest k v := by
  have h1 : ¬ k < k0 := lt_asymm h
  have h2 : k ≠ k0 := fun e => by subst e; exact lt_irrefl _ h
  simp [GoMap.assign, data_lt_iff, h1, h2]

theorem GoMap.assign_nil {V : Type} (k : String) (v : V) :
    GoMap.assign ([] : GoMap V) k v = [(k, v)] := rfl

theorem GoMap.assign_comm_lt {V : Type} (m : GoMap V) (k1 k2 : String) (v1 v2 : V) (a : k1 < k2) :
    GoMap.assign (GoMap.assign m k1 v1) k2 v2 = GoMap.assign (GoMap.assign m k2 v2) k1 v1 := by
  induction m with
  | nil => simp only [GoMap.assign_nil, GoMap.assign_cons_gt _ _ _ _ _ a, GoMap.assign_cons_lt _ _ _ _ _ a]
  | cons e rest ih =>
    obtain ⟨k0, v0⟩ := e
    rcases lt_trichotomy k1 k0 with b | b | b <;> rcases lt_trichotomy k2 k0 with c | c | c
    · simp only [GoMap.assign_cons_lt _ _ _ _ _ b, GoMap.assign_cons_lt _ _ _ _ _ c,
        GoMap.assign_cons_gt _ _ _ _ _ a, GoMap.assign_cons_lt _ _ _ _ _ a]
    · subst c
      simp only [GoMap.assign_cons_lt _ _ _ _ _ a, GoMap.assign_cons_eq,
        GoMap.assign_cons_gt _ _ _ _ _ a]
    · simp only [GoMap.assign_cons_lt _ _ _ _ _ b, GoMap.assign_cons_gt _ _ _ _ _ c,
        GoMap.assign_cons_gt _ _ _ _ _ a]
    · subst b; exact absurd c (lt_asymm a)
    · subst b; exact absurd c (ne_of_gt a)
    · subst b
      simp only [GoMap.assign_cons_eq, GoMap.assign_cons_gt _ _ _ _ _ a]
    · exact absurd (lt_trans (lt_trans a c) b) (lt_irrefl _)
    · subst c; exact absurd a (lt_asymm b)
    · simp only [GoMap.assign_cons_gt _ _ _ _ _ b, GoMap.assign_cons_gt _ _ _ _ _ c, ih]

/-- Assignments to two different keys commute. -/
theorem GoMap.assign_comm {V : Type} (m : GoMap V) (k1 k2 : String) (v1 v2 : V) (h : k1 ≠ k2) :
    GoMap.assign (GoMap.assign m k1 v1) k2 v2 = GoMap.assign (GoMap.assign m k2 v2) k1 v1 := by
  rcases lt_trichotomy k1 k2 with a | a | a
  · exact GoMap.assign_comm_lt m k1 k2 v1 v2 a
  · exact absurd a h
  · exact (GoMap.assign_comm_lt m k2 k1 v2 v1 a).symm

/-- Reading a map after an assignment. -/
theorem GoMap.index_assign {V : Type} (m : GoMap V) (k k' : String) (v : V) :
    GoMap.index (GoMap.assign m k v) k' = if k = k' then some v else GoMap.index m k' := by
  induction m with
  | nil => simp [GoMap.assign, GoMap.index]
  | cons e rest ih =>
    obtain ⟨k0, v0⟩ := e
    rcases lt_trichotomy k k0 with b | b | b
    · simp [GoMap.assign_cons_lt _ _ _ _ _ b, GoMap.index]
    · subst b
      by_cases h3 : k = k' <;> simp [GoMap.assign_cons_eq, GoMap.index, h3]
    · rw [GoMap.assign_cons_gt _ _ _ _ _ b]
      simp only [GoMap.index, ih]
      by_cases h3 : k0 = k'
      · have : k ≠ k' := fun h => by subst h3; subst h; exact lt_irrefl _ b
        simp [h3, this]
      · simp [h3]

/-! ## Lemmas on the collection loop -/

theorem collectResults_cons (m : GoMap (List String)) (r : FindResult) (rs : List FindResult) :
    collectResults m (r :: rs) = collectResults (GoMap.assign m r.path r.packages) rs := rfl

theorem collectResults_append (m : GoMap (List String)) (rs rs' : List FindResult) :
    collectResults m (rs ++ rs') = collectResults (collectResults m rs) rs' := by
  simp [collectResults, List.foldl_append]

/-- The collection loop gives the same map for every order of results with distinct paths. -/
theorem collectResults_perm {rs rs' : List FindResult} (h : List.Perm rs rs')
    (hnd : (rs.map FindResult.path).Nodup) (m : GoMap (List String)) :
    collectResults m rs = collectResults m rs' := by
  induction h generalizing m with
  | nil => rfl
  | cons x _ ih =>
    simp only [collectResults_cons]
    exact ih (List.nodup_cons.mp hnd).2 _
  | swap x y l =>
    simp only [collectResults_cons]
    have hxy : y.path ≠ x.path := by
      intro e
      have := (List.nodup_cons.mp hnd).1
      simp [e] at this
    rw [GoMap.assign_comm _ _ _ _ _ hxy]
  | trans h1 _ ih1 ih2 =>
    exact (ih1 hnd m).trans (ih2 ((h1.map _).nodup_iff.mp hnd) m)

/-- Reading the map that the collection loop builds from results with distinct paths. -/
theorem index_collectResults (rs : List FindResult) (hnd : (rs.map FindResult.path).Nodup)
    (m : GoMap (List String)) (k : String) :
    GoMap.index (collectResults m rs) k =
      match rs.find? (fun r => r.path = k) with
      | some r => some r.packages
      | none => GoMap.index m k := by
  induction rs generalizing m with
  | nil => rfl
  | cons r rs ih =>
    have hnd' := List.nodup_cons.mp hnd
    rw [collectResults_cons, ih hnd'.2]
    by_cases hk : r.path = k
    · have hnone : rs.find? (fun r => decide (r.path = k)) = none := by
        rw [List.find?_eq_none]
        intro x hx hxk
        apply hnd'.1
        simp only [decide_eq_true_eq] at hxk
        rw [hk, ← hxk]
        exact List.mem_map_of_mem _ hx
      simp [List.find?, hk, hnone, GoMap.index_assign]
    · simp only [List.find?, hk, decide_False, GoMap.index_assign, if_false]

/-! ## Lemmas on the list of workers -/

theorem sum_map_set (g : Worker → Nat) (ws : List Worker) (i : Nat) (w w' : Worker)
    (h : ws[i]? = some w) :
    ((ws.set i w').map g).sum + g w = (ws.map g).sum + g w' := by
  induction ws generalizing i with
  | nil => simp at h
  | cons x xs ih =>
    cases i with
    | zero =>
      simp only [List.getElem?_cons_zero, Option.some.injEq] at h
      subst h
      simp only [List.set_cons_zero, List.map_cons, List.sum_cons]
      omega
    | succ j =>
      simp only [List.getElem?_cons_succ] at h
      have := ih j h
      simp only [List.set_cons_succ, List.map_cons, List.sum_cons]
      omega

theorem pendingOf_append (lib : Lib) (pattern : String) (ws ws' : List Worker) :
    pendingOf lib pattern (ws ++ ws') = pendingOf lib pattern ws ++ pendingOf lib pattern ws' := by
  induction ws with
  | nil => rfl
  | cons x xs ih => simp [pendingOf, ih]

theorem pendingOf_set (lib : Lib) (pattern : String) (ws : List Worker) (i : Nat)
    (w w' : Worker) (h : ws[i]? = some w) :
    List.Perm (pendingOf lib pattern (ws.set i w') ++ Worker.pending lib pattern w)
      (pendingOf lib pattern ws ++ Worker.pending lib pattern w') := by
  induction ws generalizing i with
  | nil => simp at h
  | cons x xs ih =>
    cases i with
    | zero =>
      simp only [List.getElem?_cons_zero, Option.some.injEq] at h
      subst h
      simp only [List.set_cons_zero, pendingOf]
      have h1 : List.Perm
          (Worker.pending lib pattern w' ++ pendingOf lib pattern xs ++ Worker.pending lib pattern x)
          (Worker.pending lib pattern x ++ (Worker.pending lib pattern w' ++ pendingOf lib pattern xs)) :=
        List.perm_append_comm
      have h2 : List.Perm
          (Worker.pending lib pattern x ++ (Worker.pending lib pattern w' ++ pendingOf lib pattern xs))
          (Worker.pending lib pattern x ++ (pendingOf lib pattern xs ++ Worker.pending lib pattern w')) :=
        List.Perm.append_left _ List.perm_append_comm
      rw [List.append_assoc (Worker.pending lib pattern x)]
      exact h1.trans h2
    | succ j =>
      simp only [List.getElem?_cons_succ] at h
      simp only [List.set_cons_succ, pendingOf, List.append_assoc]
      exact List.Perm.append_left _ (ih j h)

theorem mem_of_getElem? {ws : List Worker} {i : Nat} {w : Worker} (h : ws[i]? = some w) :
    w ∈ ws := by
  induction ws generalizing i with
  | nil => simp at h
  | cons x xs ih =>
    cases i with
    | zero =>
      simp only [List.getElem?_cons_zero, Option.some.injEq] at h
      subst h
      exact List.mem_cons_self _ _
    | succ j =>
      simp only [List.getElem?_cons_succ] at h
      exact List.mem_cons_of_mem _ (ih h)

theorem mem_set_cases {ws : List Worker} {i : Nat} {w x : Worker} (h : x ∈ ws.set i w) :
    x = w ∨ x ∈ ws := by
  induction ws generalizing i with
  | nil => simp at h
  | cons y ys ih =>
    cases i with
    | zero =>
      simp only [List.set_cons_zero, List.mem_cons] at h
      rcases h with h | h
      · exact Or.inl h
      · exact Or.inr (List.mem_cons_of_mem _ h)
    | succ j =>
      simp only [List.set_cons_succ, List.mem_cons] at h
      rcases h with h | h
      · exact Or.inr (h ▸ List.mem_cons_self _ _)
      · rcases ih h with h' | h'
        · exact Or.inl h'
        · exact Or.inr (List.mem_cons_of_mem _ h')

theorem alive_sum_eq_zero {ws : List Worker} (h : (ws.map Worker.alive).sum = 0) :
    ∀ w ∈ ws, w = Worker.exited := by
  induction ws with
  | nil => simp
  | cons x xs ih =>
    simp only [List.map_cons, List.sum_cons] at h
    intro w hw
    rcases List.mem_cons.mp hw with e | e
    · subst e
      cases w <;> simp [Worker.alive] at h ⊢
    · exact ih (by omega) w e

theorem alive_sum_pos {ws : List Worker} (h : 0 < (ws.map Worker.alive).sum) :
    ∃ (i : Nat) (w : Worker), ws[i]? = some w ∧ w ≠ Worker.exited := by
  induction ws with
  | nil => simp at h
  | cons x xs ih =>
    by_cases hx : x = Worker.exited
    · subst hx
      simp only [List.map_cons, List.sum_cons, Worker.alive, Nat.zero_add] at h
      obtain ⟨i, w, hi, hw⟩ := ih h
      exact ⟨i + 1, w, by simpa using hi, hw⟩
    · exact ⟨0, x, by simp, hx⟩

theorem alive_sum_pos_of_mem {ws : List Worker} {w : Worker} (hw : w ∈ ws)
    (hne : w ≠ Worker.exited) : 0 < (ws.map Worker.alive).sum := by
  induction ws with
  | nil => simp at hw
  | cons x xs ih =>
    simp only [List.map_cons, List.sum_cons]
    rcases List.mem_cons.mp hw with e | e
    · subst e
      cases w <;> simp [Worker.alive] at hne ⊢
    · have := ih e
      omega

theorem step_sound {lib : Lib} {b : Option Bucket} {pattern : String} {s s' : State}
    {l : Label} (h : step lib b pattern s l = some s') : Step lib b pattern s l s' := by
  obtain ⟨m, producer, workers, findWg, output, closer, main, panic⟩ := s
  unfold step at h
  cases panic with
  | some msg => simp at h
  | none =>
    have hne : ¬ ((none : Option String) ≠ none) := fun c => c rfl
    simp only [hne, if_false] at h
    cases l with
    | spawn =>
      simp only at h
      split at h
      · rename_i hc
        cases h
        exact Step.spawn rfl hc.1 hc.2
      · cases h
    | startCloser =>
      simp only at h
      split at h
      · rename_i hc
        cases h
        exact Step.startCloser rfl hc.1 hc.2
      · cases h
    | forEach =>
      cases producer with
      | start =>
        cases b with
        | none =>
          simp only at h
          cases h
          exact Step.forEachNil rfl rfl rfl
        | some bk =>
          simp only at h
          cases h
          exact Step.forEach bk rfl rfl rfl
      | sending rest => simp at h
      | finished => simp at h
    | recv i =>
      cases producer with
      | start => simp at h
      | finished => simp at h
      | sending todo =>
        cases todo with
        | nil => simp at h
        | cons path rest =>
          cases b with
          | none => simp at h
          | some bk =>
            cases hw : workers[i]? with
            | none => simp [hw] at h
            | some w =>
              cases w with
              | ranging =>
                simp only [hw] at h
                cases h
                exact Step.recv i path rest bk rfl rfl rfl hw
              | matching a => simp [hw] at h
              | sending r => simp [hw] at h
              | exited => simp [hw] at h
    | closeInput =>
      cases producer with
      | start => simp at h
      | finished => simp at h
      | sending todo =>
        cases todo with
        | nil =>
          simp only at h
          cases h
          exact Step.closeInput rfl rfl
        | cons path rest => simp at h
    | compute i =>
      cases hw : workers[i]? with
      | none => simp [hw] at h
      | some w =>
        cases w with
        | ranging => simp [hw] at h
        | sending r => simp [hw] at h
        | exited => simp [hw] at h
        | matching a =>
          simp only [hw] at h
          cases h
          unfold find_it_body
          by_cases hm : lib.Match pattern a.path 0 = true
          · simp only [hm, if_true]
            cases hn : Bucket.Bucket a.bucket a.path with
            | none => exact Step.computeNil i a rfl hw hm hn
            | some sub => exact Step.computeYes i a sub rfl hw hm hn
          · simp only [hm, if_false]
            exact Step.computeNo i a rfl hw (by simpa using hm)
    | send i =>
      cases hw : workers[i]? with
      | none => simp [hw] at h
      | some w =>
        cases w with
        | ranging => simp [hw] at h
        | matching a => simp [hw] at h
        | exited => simp [hw] at h
        | sending r =>
          simp only [hw] at h
          split at h
          · rename_i hc
            cases h
            exact Step.sendClosed i r rfl hw hc
          · rename_i hc
            split at h
            · rename_i hl
              cases h
              exact Step.send i r rfl hw hc hl
            · cases h
    | exit i =>
      cases hw : workers[i]? with
      | none => simp [hw] at h
      | some w =>
        cases w with
        | matching a => simp [hw] at h
        | sending r => simp [hw] at h
        | exited => simp [hw] at h
        | ranging =>
          simp only [hw] at h
          split at h
          · rename_i hs
            cases h
            exact Step.exit i rfl hw hs
          · cases h
    | closeOutput =>
      simp only at h
      split at h
      · rename_i hc
        cases h
        exact Step.closeOutput rfl hc.1 hc.2
      · cases h
    | collect =>
      simp only at h
      split at h
      · rename_i hm
        cases output with
        | nil => simp at h
        | cons r rest =>
          simp only at h
          cases h
          exact Step.collect r rest rfl hm rfl
      · cases h
    | finish =>
      simp only at h
      split at h
      · rename_i hc
        cases h
        exact Step.finish rfl hc.1 hc.2.1 hc.2.2
      · cases h

theorem step_complete {lib : Lib} {b : Option Bucket} {pattern : String} {s s' : State}
    {l : Label} (h : Step lib b pattern s l s') : step lib b pattern s l = some s' := by
  cases h <;> simp_all [step, find_it_body]

/-! ## The invariant of `Find` on an existing bucket -/

theorem resultsFor_cons (lib : Lib) (b : Bucket) (pattern path : String) (rest : List String) :
    resultsFor lib b pattern (path :: rest) =
      (resultOf lib pattern ⟨b, path⟩).toList ++ resultsFor lib b pattern rest := by
  unfold resultsFor
  cases h : resultOf lib pattern ⟨b, path⟩ <;> simp [List.filterMap_cons, h]

theorem Inv.init (lib : Lib) (bk : Bucket) (pattern : String) : Inv lib bk pattern State.init where
  wg := rfl
  len := Nat.zero_le _
  early := fun _ => rfl
  late := fun h => absurd rfl h
  closed := fun h => by cases h
  exits := fun h => by simp [State.init] at h
  done := fun h => by cases h
  held := fun a h => by simp [State.init] at h
  todo := fun rest h => by cases h
  results := ⟨[], rfl, by simp [State.init, pendingOf, Producer.pending]⟩

theorem Inv.preserved {lib : Lib} {bk : Bucket} {pattern : String} {s s' : State} {l : Label}
    (hinv : Inv lib bk pattern s) (h : Step lib (some bk) pattern s l s') :
    Inv lib bk pattern s' := by
  obtain ⟨hwg, hlen, hearly, hlate, hclosed, hexits, hdone, hheld, htodo, collected, hcol, hperm⟩ := hinv
  cases h with
  | spawn hp hm hl =>
    refine ⟨?_, ?_, hearly, ?_, ?_, ?_, ?_, ?_, htodo, collected, hcol, ?_⟩
    · simp [List.map_append, List.sum_append, Worker.alive, hwg]
    · simp only [List.length_append, List.length_singleton]; omega
    · intro h; exact absurd hm h
    · intro h; rw [hearly hm] at h; cases h
    · intro h
      simp only [List.mem_append, List.mem_singleton] at h
      rcases h with h | h
      · exact hexits h
      · cases h
    · intro h; rw [hm] at h; cases h
    · intro a h
      simp only [List.mem_append, List.mem_singleton] at h
      rcases h with h | h
      · exact hheld a h
      · cases h
    · simpa [pendingOf_append, pendingOf, Worker.pending] using hperm
  | startCloser hp hm hl =>
    refine ⟨hwg, hlen, ?_, ?_, ?_, hexits, ?_, hheld, htodo, collected, hcol, hperm⟩
    · intro h; cases h
    · intro _
      refine ⟨?_, fun h => by cases h⟩
      show s.workers.length = workerCount
      omega
    · intro h; cases h
    · intro h; cases h
  | forEachNil hp hs hb => cases hb
  | forEach bk' hp hs hb =>
    cases hb
    refine ⟨hwg, hlen, hearly, hlate, hclosed, ?_, hdone, hheld, ?_, collected, hcol, ?_⟩
    · intro h
      have := hexits h
      rw [hs] at this
      cases this
    · intro rest h p hp'
      cases h
      exact hp'
    · rw [hs] at hperm
      exact hperm
  | recv i path rest bk' hp hs hb hw =>
    cases hb
    have hpath : ∀ p ∈ path :: rest, p ∈ Bucket.keys bk := htodo _ hs
    refine ⟨?_, ?_, hearly, ?_, hclosed, ?_, hdone, ?_, ?_, collected, hcol, ?_⟩
    · have := sum_map_set Worker.alive s.workers i _ (Worker.matching ⟨bk, path⟩) hw
      simp only [Worker.alive] at this
      dsimp only
      omega
    · simpa using hlen
    · intro h
      have := hlate h
      simpa using this
    · intro h
      rcases mem_set_cases h with h' | h'
      · cases h'
      · have := hexits h'
        rw [hs] at this
        cases this
    · intro a h
      rcases mem_set_cases h with h' | h'
      · cases h'
        exact ⟨rfl, hpath path (List.mem_cons_self _ _)⟩
      · exact hheld a h'
    · intro rest' h p hp'
      cases h
      exact hpath p (List.mem_cons_of_mem _ hp')
    · have hset := pendingOf_set lib pattern s.workers i _ (Worker.matching ⟨bk, path⟩) hw
      simp only [Worker.pending, List.append_nil] at hset
      rw [hs] at hperm
      simp only [Producer.pending, resultsFor_cons] at hperm ⊢
      refine List.Perm.trans ?_ hperm
      simp only [List.append_assoc]
      refine List.Perm.append_left _ (List.Perm.append_left _ ?_)
      rw [← List.append_assoc]
      exact List.Perm.append_right _ hset
  | closeInput hp hs =>
    refine ⟨hwg, hlen, hearly, hlate, hclosed, fun _ => rfl, hdone, hheld, ?_, collected, hcol, ?_⟩
    · intro rest h; cases h
    · rw [hs] at hperm
      simpa [Producer.pending, resultsFor] using hperm
  | computeNo i a hp hw hm =>
    refine ⟨?_, ?_, hearly, ?_, hclosed, ?_, hdone, ?_, htodo, collected, hcol, ?_⟩
    · have := sum_map_set Worker.alive s.workers i _ Worker.ranging hw
      simp only [Worker.alive] at this
      dsimp only
      omega
    · simpa using hlen
    · intro h
      have := hlate h
      simpa using this
    · intro h
      rcases mem_set_cases h with h' | h'
      · cases h'
      · exact hexits h'
    · intro a' h
      rcases mem_set_cases h with h' | h'
      · cases h'
      · exact hheld a' h'
    · have hset := pendingOf_set lib pattern s.workers i _ Worker.ranging hw
      simp only [Worker.pending, resultOf, hm, List.append_nil] at hset
      simp only [Bool.false_eq_true, if_false, Option.toList, List.append_nil] at hset
      refine List.Perm.trans ?_ hperm
      exact List.Perm.append_right _ (List.Perm.append_left _ hset)
  | computeNil i a hp hw hm hn =>
    exact ⟨hwg, hlen, hearly, hlate, hclosed, hexits, hdone, hheld, htodo, collected, hcol, hperm⟩
  | computeYes i a sub hp hw hm hn =>
    refine ⟨?_, ?_, hearly, ?_, hclosed, ?_, hdone, ?_, htodo, collected, hcol, ?_⟩
    · have := sum_map_set Worker.alive s.workers i _
        (Worker.sending ⟨a.path, Bucket.keys sub⟩) hw
      simp only [Worker.alive] at this
      dsimp only
      omega
    · simpa using hlen
    · intro h
      have := hlate h
      simpa using this
    · intro h
      rcases mem_set_cases h with h' | h'
      · cases h'
      · exact hexits h'
    · intro a' h
      rcases mem_set_cases h with h' | h'
      · cases h'
      · exact hheld a' h'
    · have hset := pendingOf_set lib pattern s.workers i _
        (Worker.sending ⟨a.path, Bucket.keys sub⟩) hw
      simp only [Worker.pending, resultOf, hm, hn, if_true, Option.map_some', Option.toList] at hset
      refine List.Perm.trans ?_ hperm
      refine List.Perm.append_right _ (List.Perm.append_left _ ?_)
      exact (List.perm_append_right_iff _).mp hset
  | sendClosed i r hp hw hc =>
    exact ⟨hwg, hlen, hearly, hlate, hclosed, hexits, hdone, hheld, htodo, collected, hcol, hperm⟩
  | send i r hp hw hc hl =>
    refine ⟨?_, ?_, hearly, ?_, hclosed, ?_, ?_, ?_, htodo, collected, hcol, ?_⟩
    · have := sum_map_set Worker.alive s.workers i _ Worker.ranging hw
      simp only [Worker.alive] at this
      dsimp only
      omega
    · simpa using hlen
    · intro h
      have := hlate h
      simpa using this
    · intro h
      rcases mem_set_cases h with h' | h'
      · cases h'
      · exact hexits h'
    · intro h
      exact absurd (hdone h).2 hc
    · intro a' h
      rcases mem_set_cases h with h' | h'
      · cases h'
      · exact hheld a' h'
    · have hset := pendingOf_set lib pattern s.workers i _ Worker.ranging hw
      simp only [Worker.pending, List.append_nil] at hset
      refine List.Perm.trans ?_ hperm
      refine List.Perm.append_right _ ?_
      simp only [List.append_assoc]
      refine List.Perm.append_left _ (List.Perm.append_left _ ?_)
      exact List.perm_append_comm.trans hset
  | exit i hp hw hs =>
    have hsum := sum_map_set Worker.alive s.workers i _ Worker.exited hw
    simp only [Worker.alive] at hsum
    refine ⟨?_, ?_, hearly, ?_, ?_, fun _ => hs, hdone, ?_, htodo, collected, hcol, ?_⟩
    · dsimp only
      omega
    · simpa using hlen
    · intro h
      have := hlate h
      simpa using this
    · intro h
      have := hclosed h
      dsimp only
      omega
    · intro a' h
      rcases mem_set_cases h with h' | h'
      · cases h'
      · exact hheld a' h'
    · have hset := pendingOf_set lib pattern s.workers i _ Worker.exited hw
      simp only [Worker.pending, List.append_nil] at hset
      refine List.Perm.trans ?_ hperm
      exact List.Perm.append_right _ (List.Perm.append_left _ hset)
  | closeOutput hp hc hz =>
    refine ⟨hwg, hlen, ?_, ?_, fun _ => hz, hexits, ?_, hheld, htodo, collected, hcol, hperm⟩
    · intro h
      have := hearly h
      rw [hc] at this
      cases this
    · intro h
      exact ⟨(hlate h).1, fun c => by cases c⟩
    · intro h
      have := (hdone h).2
      rw [hc] at this
      cases this
  | collect r rest hp hm ho =>
    refine ⟨hwg, hlen, hearly, hlate, hclosed, hexits, ?_, hheld, htodo, collected ++ [r], ?_, ?_⟩
    · intro h
      rw [hm] at h
      cases h
    · show GoMap.assign s.m r.path r.packages = _
      rw [collectResults_append, ← hcol]
      rfl
    · rw [ho] at hperm
      simpa [List.append_assoc] using hperm
  | finish hp hm ho hc =>
    refine ⟨hwg, hlen, ?_, ?_, hclosed, hexits, fun _ => ⟨ho, hc⟩, hheld, htodo, collected, hcol, hperm⟩
    · intro h; cases h
    · intro _
      exact hlate (by rw [hm]; intro c; cases c)

/-! ## Schedules -/

theorem run_append (lib : Lib) (b : Option Bucket) (pattern : String) (s : State)
    (l1 l2 : List Label) :
    run lib b pattern s (l1 ++ l2) =
      (run lib b pattern s l1).bind fun s' => run lib b pattern s' l2 := by
  induction l1 generalizing s with
  | nil => rfl
  | cons l ls ih =>
    simp only [List.cons_append, run]
    cases step lib b pattern s l with
    | none => rfl
    | some s1 => exact ih s1

theorem Inv.along {lib : Lib} {bk : Bucket} {pattern : String} {sched : List Label} :
    ∀ {s s' : State}, Inv lib bk pattern s → run lib (some bk) pattern s sched = some s' →
      Inv lib bk pattern s' := by
  induction sched with
  | nil =>
    intro s s' hinv h
    simp only [run, Option.some.injEq] at h
    exact h ▸ hinv
  | cons l ls ih =>
    intro s s' hinv h
    simp only [run] at h
    cases hs : step lib (some bk) pattern s l with
    | none => simp [hs] at h
    | some s1 =>
      simp only [hs] at h
      exact ih (hinv.preserved (step_sound hs)) h

/-! ## Termination -/

theorem step_measure {lib : Lib} {b : Option Bucket} {pattern : String} {s s' : State}
    {l : Label} (h : Step lib b pattern s l s') : s'.measure b < s.measure b := by
  cases h with
  | spawn hp hm hl =>
    simp only [State.measure, List.map_append, List.sum_append, List.length_append,
      List.map_cons, List.map_nil, List.sum_cons, List.sum_nil, List.length_singleton,
      Worker.weight]
    omega
  | startCloser hp hm hl =>
    simp only [State.measure, hm, Main.weight, Closer.weight]
    cases s.closer <;> simp only [Closer.weight] <;> omega
  | forEachNil hp hs hb =>
    simp only [State.measure, hp]
    simp
  | forEach bk hp hs hb =>
    subst hb
    simp only [State.measure, hs, Producer.weight, keyCount]
    omega
  | recv i path rest bk hp hs hb hw =>
    have := sum_map_set Worker.weight s.workers i _ (Worker.matching ⟨bk, path⟩) hw
    simp only [Worker.weight] at this
    simp only [State.measure, hs, Producer.weight, List.length_cons, List.length_set]
    omega
  | closeInput hp hs =>
    simp only [State.measure, hs, Producer.weight]
    omega
  | computeNo i a hp hw hm =>
    have := sum_map_set Worker.weight s.workers i _ Worker.ranging hw
    simp only [Worker.weight] at this
    simp only [State.measure, List.length_set]
    omega
  | computeNil i a hp hw hm hn =>
    simp only [State.measure, hp]
    simp
  | computeYes i a sub hp hw hm hn =>
    have := sum_map_set Worker.weight s.workers i _
      (Worker.sending ⟨a.path, Bucket.keys sub⟩) hw
    simp only [Worker.weight] at this
    simp only [State.measure, List.length_set]
    omega
  | sendClosed i r hp hw hc =>
    simp only [State.measure, hp]
    simp
  | send i r hp hw hc hl =>
    have := sum_map_set Worker.weight s.workers i _ Worker.ranging hw
    simp only [Worker.weight] at this
    simp only [State.measure, List.length_set, List.length_append, List.length_singleton]
    omega
  | exit i hp hw hs =>
    have := sum_map_set Worker.weight s.workers i _ Worker.exited hw
    simp only [Worker.weight] at this
    simp only [State.measure, List.length_set]
    omega
  | closeOutput hp hc hz =>
    simp only [State.measure, hc, Closer.weight]
    omega
  | collect r rest hp hm ho =>
    simp only [State.measure, ho, List.length_cons]
    omega
  | finish hp hm ho hc =>
    simp only [State.measure, hm, Main.weight]
    omega

/-- A schedule is no longer than the measure of the state it starts from. -/
theorem run_length {lib : Lib} {b : Option Bucket} {pattern : String} {sched : List Label} :
    ∀ {s s' : State}, run lib b pattern s sched = some s' →
      sched.length + s'.measure b ≤ s.measure b := by
  induction sched with
  | nil =>
    intro s s' h
    simp only [run, Option.some.injEq] at h
    subst h
    simp
  | cons l ls ih =>
    intro s s' h
    simp only [run] at h
    cases hs : step lib b pattern s l with
    | none => simp [hs] at h
    | some s1 =>
      simp only [hs] at h
      have h1 := step_measure (step_sound hs)
      have h2 := ih h
      simp only [List.length_cons]
      omega

theorem measure_init (b : Option Bucket) : State.init.measure b = 4 * keyCount b + 1032 := by
  simp [State.measure, State.init, Producer.weight, Main.weight, Closer.weight, workerCount]
  omega

/-! ## No panic, progress -/

/-- No worker sends on the closed `output`. -/
theorem Inv.not_closed_of_sending {lib : Lib} {bk : Bucket} {pattern : String} {s : State}
    (hinv : Inv lib bk pattern s) {w : Worker} (hw : w ∈ s.workers) (hne : w ≠ Worker.exited) :
    s.closer ≠ Closer.closed := by
  intro hc
  have h0 := hinv.closed hc
  have hpos := alive_sum_pos_of_mem hw hne
  rw [← hinv.wg] at hpos
  omega

theorem Inv.step_panic {lib : Lib} {bk : Bucket} {pattern : String} {s s' : State} {l : Label}
    (hinv : Inv lib bk pattern s)
    (hsub : ∀ path ∈ Bucket.keys bk, lib.Match pattern path 0 = true →
      Bucket.Bucket bk path ≠ none)
    (h : Step lib (some bk) pattern s l s') : s'.panic = none := by
  cases h with
  | forEachNil hp hs hb => cases hb
  | computeNil i a hp hw hm hn =>
    have := hinv.held a (mem_of_getElem? hw)
    rw [this.1] at hn
    exact absurd hn (hsub _ this.2 hm)
  | sendClosed i r hp hw hc =>
    exact absurd hc (hinv.not_closed_of_sending (mem_of_getElem? hw) (fun c => by cases c))
  | spawn hp hm hl => exact hp
  | startCloser hp hm hl => exact hp
  | forEach bk' hp hs hb => exact hp
  | recv i path rest bk' hp hs hb hw => exact hp
  | closeInput hp hs => exact hp
  | computeNo i a hp hw hm => exact hp
  | computeYes i a sub hp hw hm hn => exact hp
  | send i r hp hw hc hl => exact hp
  | exit i hp hw hs => exact hp
  | closeOutput hp hc hz => exact hp
  | collect r rest hp hm ho => exact hp
  | finish hp hm ho hc => exact hp

/-- Until `Find` has returned or panicked, one of its goroutines can take a step. -/
theorem Inv.progress {lib : Lib} {bk : Bucket} {pattern : String} {s : State}
    (hinv : Inv lib bk pattern s) (hp : s.panic = none) (hm : s.main ≠ Main.returned) :
    ∃ l s', Step lib (some bk) pattern s l s' := by
  cases hmain : s.main with
  | returned => exact absurd hmain hm
  | spawning =>
    by_cases hl : s.workers.length < workerCount
    · exact ⟨_, _, Step.spawn hp hmain hl⟩
    · exact ⟨_, _, Step.startCloser hp hmain hl⟩
  | collecting =>
    cases hout : s.output with
    | cons r rest => exact ⟨_, _, Step.collect r rest hp hmain hout⟩
    | nil =>
      have hl := hinv.late (by rw [hmain]; intro c; cases c)
      cases hc : s.closer with
      | absent => exact absurd hc hl.2
      | closed => exact ⟨_, _, Step.finish hp hmain hout hc⟩
      | waiting =>
        by_cases hz : s.findWg = 0
        · exact ⟨_, _, Step.closeOutput hp hc hz⟩
        · have hpos : 0 < (s.workers.map Worker.alive).sum := by
            rw [← hinv.wg]; omega
          obtain ⟨i, w, hi, hw⟩ := alive_sum_pos hpos
          cases w with
          | exited => exact absurd rfl hw
          | matching a =>
            cases hmt : lib.Match pattern a.path 0 with
            | false => exact ⟨_, _, Step.computeNo i a hp hi hmt⟩
            | true =>
              cases hn : Bucket.Bucket a.bucket a.path with
              | none => exact ⟨_, _, Step.computeNil i a hp hi hmt hn⟩
              | some sub => exact ⟨_, _, Step.computeYes i a sub hp hi hmt hn⟩
          | sending r =>
            refine ⟨_, _, Step.send i r hp hi (by rw [hc]; intro c; cases c) ?_⟩
            rw [hout]
            simp [outputCap]
          | ranging =>
            cases hprod : s.producer with
            | start => exact ⟨_, _, Step.forEach bk hp hprod rfl⟩
            | finished => exact ⟨_, _, Step.exit i hp hi hprod⟩
            | sending todo =>
              cases todo with
              | nil => exact ⟨_, _, Step.closeInput hp hprod⟩
              | cons path rest => exact ⟨_, _, Step.recv i path rest bk hp hprod rfl hi⟩

/-- From every state that `Find` reaches it can go on until it has returned. -/
theorem Inv.reach_returned {lib : Lib} {bk : Bucket} {pattern : String}
    (hsub : ∀ path ∈ Bucket.keys bk, lib.Match pattern path 0 = true →
      Bucket.Bucket bk path ≠ none) :
    ∀ (n : Nat) (s : State), s.measure (some bk) ≤ n → Inv lib bk pattern s → s.panic = none →
      ∃ more s', run lib (some bk) pattern s more = some s' ∧ s'.main = Main.returned ∧
        s'.panic = none := by
  intro n
  induction n with
  | zero =>
    intro s hn hinv hp
    have : 0 < s.measure (some bk) := by
      simp only [State.measure, hp, if_true]
      omega
    omega
  | succ n ih =>
    intro s hn hinv hp
    by_cases hm : s.main = Main.returned
    · exact ⟨[], s, rfl, hm, hp⟩
    · obtain ⟨l, s1, hstep⟩ := hinv.progress hp hm
      have hlt := step_measure hstep
      obtain ⟨more, s', hrun, hret, hp'⟩ :=
        ih s1 (by omega) (hinv.preserved hstep) (hinv.step_panic hsub hstep)
      refine ⟨l :: more, s', ?_, hret, hp'⟩
      simp only [run, step_complete hstep]
      exact hrun

/-! ## The map that `Find` returns -/

theorem pendingOf_exited (lib : Lib) (pattern : String) {ws : List Worker}
    (h : ∀ w ∈ ws, w = Worker.exited) : pendingOf lib pattern ws = [] := by
  induction ws with
  | nil => rfl
  | cons x xs ih =>
    have hx := h x (List.mem_cons_self _ _)
    subst hx
    simp only [pendingOf, Worker.pending, List.nil_append]
    exact ih fun w hw => h w (List.mem_cons_of_mem _ hw)

theorem resultOf_path {lib : Lib} {pattern : String} {a : FindAction} {r : FindResult}
    (h : resultOf lib pattern a = some r) : r.path = a.path := by
  unfold resultOf at h
  split at h
  · cases hb : Bucket.Bucket a.bucket a.path with
    | none => simp [hb] at h
    | some sub =>
      simp only [hb, Option.map_some', Option.some.injEq] at h
      rw [← h]
  · cases h

theorem resultsFor_paths_sublist (lib : Lib) (b : Bucket) (pattern : String)
    (paths : List String) :
    List.Sublist ((resultsFor lib b pattern paths).map FindResult.path) paths := by
  induction paths with
  | nil => exact List.Sublist.slnil
  | cons p rest ih =>
    rw [resultsFor_cons]
    cases h : resultOf lib pattern ⟨b, p⟩ with
    | none =>
      simp only [Option.toList, List.nil_append]
      exact List.Sublist.cons _ ih
    | some r =>
      simp only [Option.toList, List.singleton_append, List.map_cons]
      rw [resultOf_path h]
      exact List.Sublist.cons₂ _ ih

theorem emitted_nodup (lib : Lib) (b : Bucket) (pattern : String)
    (hk : (Bucket.keys b).Nodup) : ((emitted lib b pattern).map FindResult.path).Nodup :=
  List.Nodup.sublist (resultsFor_paths_sublist lib b pattern _) hk

/-- When `Find` has returned, its map is the one a sequential run builds. -/
theorem Inv.returned_map {lib : Lib} {bk : Bucket} {pattern : String} {s : State}
    (hnd : ((emitted lib bk pattern).map FindResult.path).Nodup) (hinv : Inv lib bk pattern s)
    (hm : s.main = Main.returned) :
    s.m = collectResults [] (emitted lib bk pattern) := by
  obtain ⟨hout, hc⟩ := hinv.done hm
  have hz := hinv.closed hc
  rw [hinv.wg] at hz
  have hall := alive_sum_eq_zero hz
  have hlen := (hinv.late (by rw [hm]; intro c; cases c)).1
  have hex : Worker.exited ∈ s.workers := by
    cases hws : s.workers with
    | nil => rw [hws] at hlen; simp [workerCount] at hlen
    | cons w ws =>
      have := hall w (by rw [hws]; exact List.mem_cons_self _ _)
      rw [this]
      exact List.mem_cons_self _ _
  have hfin := hinv.exits hex
  obtain ⟨collected, hcol, hperm⟩ := hinv.results
  rw [hout, pendingOf_exited lib pattern hall, hfin] at hperm
  simp only [Producer.pending, List.append_nil] at hperm
  rw [hcol]
  refine collectResults_perm hperm ?_ []
  exact (hperm.map _).nodup_iff.mpr hnd

theorem find?_resultsFor (lib : Lib) (b : Bucket) (pattern : String) (k : String)
    (paths : List String) :
    (resultsFor lib b pattern paths).find? (fun r => r.path = k) =
      if k ∈ paths then resultOf lib pattern ⟨b, k⟩ else none := by
  induction paths with
  | nil => simp [resultsFor]
  | cons p rest ih =>
    rw [resultsFor_cons]
    cases h : resultOf lib pattern ⟨b, p⟩ with
    | none =>
      simp only [Option.toList, List.nil_append, ih, List.mem_cons]
      by_cases hpk : k = p
      · subst hpk
        simp [h]
      · simp [hpk]
    | some r =>
      have hr := resultOf_path h
      simp only [Option.toList, List.singleton_append, List.find?_cons, List.mem_cons]
      by_cases hpk : k = p
      · subst hpk
        simp [hr, h]
      · have : ¬ r.path = k := fun e => hpk (by rw [← e, hr])
        simp [this, hpk, ih]

/-- The map of a sequential run: exactly the matching paths of the bucket, each with the
keys of its sub-bucket. -/
theorem index_emitted (lib : Lib) (b : Bucket) (pattern : String)
    (hk : (Bucket.keys b).Nodup) (k : String) :
    GoMap.index (collectResults [] (emitted lib b pattern)) k =
      if k ∈ Bucket.keys b ∧ lib.Match pattern k 0 = true then
        (Bucket.Bucket b k).map Bucket.keys
      else none := by
  rw [index_collectResults _ (emitted_nodup lib b pattern hk)]
  unfold emitted
  rw [find?_resultsFor]
  by_cases hmem : k ∈ Bucket.keys b
  · by_cases hmt : lib.Match pattern k 0 = true
    · simp only [hmem, hmt, if_true, and_self, resultOf]
      cases Bucket.Bucket b k <;> simp [GoMap.index]
    · simp [hmem, hmt, resultOf, GoMap.index]
  · simp [hmem, GoMap.index]

/-! ## Find on a nil bucket -/

theorem InvNil.nil_init : InvNil State.init where
  producer := rfl
  idle := fun w h => by simp [State.init] at h
  wg := rfl
  len := Nat.zero_le _
  waits := fun h => absurd rfl h
  opened := fun h => by cases h
  going := fun h => by cases h
  panic := Or.inl rfl

theorem InvNil.nil_preserved {lib : Lib} {pattern : String} {s s' : State} {l : Label}
    (hinv : InvNil s) (h : Step lib none pattern s l s') : InvNil s' := by
  obtain ⟨hprod, hidle, hwg, hlen, hwaits, hopen, hgoing, hpanic⟩ := hinv
  cases h with
  | spawn hp hm hl =>
    refine ⟨hprod, ?_, ?_, ?_, ?_, hopen, hgoing, hpanic⟩
    · intro w hw
      simp only [List.mem_append, List.mem_singleton] at hw
      rcases hw with hw | hw
      · exact hidle w hw
      · exact hw
    · simp [hwg]
    · simp only [List.length_append, List.length_singleton]; omega
    · intro h
      have := hwaits h
      omega
  | startCloser hp hm hl =>
    refine ⟨hprod, hidle, hwg, hlen, ?_, ?_, ?_, hpanic⟩
    · intro _
      show s.workers.length = workerCount
      omega
    · intro h; cases h
    · intro h; cases h
  | forEachNil hp hs hb => exact ⟨hprod, hidle, hwg, hlen, hwaits, hopen, hgoing, Or.inr rfl⟩
  | forEach bk hp hs hb => cases hb
  | recv i path rest bk hp hs hb hw => cases hb
  | closeInput hp hs => rw [hprod] at hs; cases hs
  | computeNo i a hp hw hm => have := hidle _ (mem_of_getElem? hw); cases this
  | computeNil i a hp hw hm hn => have := hidle _ (mem_of_getElem? hw); cases this
  | computeYes i a sub hp hw hm hn => have := hidle _ (mem_of_getElem? hw); cases this
  | sendClosed i r hp hw hc => have := hidle _ (mem_of_getElem? hw); cases this
  | send i r hp hw hc hl => have := hidle _ (mem_of_getElem? hw); cases this
  | exit i hp hw hs => rw [hprod] at hs; cases hs
  | closeOutput hp hc hz =>
    have := hwaits (by rw [hc]; intro c; cases c)
    rw [hwg, this] at hz
    simp [workerCount] at hz
  | collect r rest hp hm ho =>
    exact ⟨hprod, hidle, hwg, hlen, hwaits, hopen, hgoing, hpanic⟩
  | finish hp hm ho hc => exact absurd hc hopen

theorem InvNil.nil_along {lib : Lib} {pattern : String} {sched : List Label} :
    ∀ {s s' : State}, InvNil s → run lib none pattern s sched = some s' → InvNil s' := by
  induction sched with
  | nil =>
    intro s s' hinv h
    simp only [run, Option.some.injEq] at h
    exact h ▸ hinv
  | cons l ls ih =>
    intro s s' hinv h
    simp only [run] at h
    cases hs : step lib none pattern s l with
    | none => simp [hs] at h
    | some s1 =>
      simp only [hs] at h
      exact ih (hinv.nil_preserved (step_sound hs)) h

/-! ## Find, seen by its caller -/

theorem outcome_returned_iff (s : State) (m : GoMap (List String)) :
    s.outcome = Outcome.returned m ↔ s.panic = none ∧ s.main = Main.returned ∧ s.m = m := by
  unfold State.outcome
  cases hp : s.panic with
  | some msg => simp
  | none =>
    by_cases hm : s.main = Main.returned
    · simp [hm]
    · simp [hm]

theorem outcome_panicked_iff (s : State) (msg : String) :
    s.outcome = Outcome.panicked msg ↔ s.panic = some msg := by
  unfold State.outcome
  cases hp : s.panic with
  | some msg' => simp
  | none =>
    by_cases hm : s.main = Main.returned
    · simp [hm]
    · simp [hm]

theorem outcome_running_iff (s : State) :
    s.outcome = Outcome.running ↔ s.panic = none ∧ s.main ≠ Main.returned := by
  unfold State.outcome
  cases hp : s.panic with
  | some msg' => simp
  | none =>
    by_cases hm : s.main = Main.returned
    · simp [hm]
    · simp [hm]

theorem Find_serving (lib : Lib) (tx : Tx) (archive pattern : String) (sched : List Label) :
    Find lib (DB.serving tx) archive pattern sched =
      (run lib (Tx.Bucket tx archive) pattern State.init sched).map State.outcome := rfl

/-- On an existing bucket, a map that `Find` returns is the map of a sequential run. -/
theorem Find_returned_eq {lib : Lib} {tx : Tx} {archive pattern : String} {b : Bucket}
    (hb : Tx.Bucket tx archive = some b)
    (hnd : ((emitted lib b pattern).map FindResult.path).Nodup)
    {sched : List Label} {m : GoMap (List String)}
    (h : Find lib (DB.serving tx) archive pattern sched = some (Outcome.returned m)) :
    m = collectResults [] (emitted lib b pattern) := by
  rw [Find_serving, hb] at h
  cases hr : run lib (some b) pattern State.init sched with
  | none => simp [hr] at h
  | some s =>
    simp only [hr, Option.map_some', Option.some.injEq] at h
    obtain ⟨_, hm, hmap⟩ := (outcome_returned_iff s m).mp h
    rw [← hmap]
    exact ((Inv.init lib b pattern).along hr).returned_map hnd hm

theorem Inv.init_panic {lib : Lib} {bk : Bucket} {pattern : String}
    (hsub : ∀ path ∈ Bucket.keys bk, lib.Match pattern path 0 = true →
      Bucket.Bucket bk path ≠ none) {sched : List Label} :
    ∀ {s s' : State}, Inv lib bk pattern s → s.panic = none →
      run lib (some bk) pattern s sched = some s' → s'.panic = none := by
  induction sched with
  | nil =>
    intro s s' _ hp h
    simp only [run, Option.some.injEq] at h
    exact h ▸ hp
  | cons l ls ih =>
    intro s s' hinv hp h
    simp only [run] at h
    cases hs : step lib (some bk) pattern s l with
    | none => simp [hs] at h
    | some s1 =>
      simp only [hs] at h
      exact ih (hinv.preserved (step_sound hs)) (hinv.step_panic hsub (step_sound hs)) h

/-- On an existing bucket whose matching paths hold sub-buckets, `Find` under a schedule
is still running or has returned the map of a sequential run. -/
theorem Find_outcome {lib : Lib} {tx : Tx} {archive pattern : String} {b : Bucket}
    (hb : Tx.Bucket tx archive = some b)
    (hnd : ((emitted lib b pattern).map FindResult.path).Nodup)
    (hsub : ∀ path ∈ Bucket.keys b, lib.Match pattern path 0 = true →
      Bucket.Bucket b path ≠ none)
    {sched : List Label} {o : Outcome (GoMap (List String))}
    (h : Find lib (DB.serving tx) archive pattern sched = some o) :
    o = Outcome.running ∨ o = Outcome.returned (collectResults [] (emitted lib b pattern)) := by
  cases o with
  | running => exact Or.inl rfl
  | returned m => exact Or.inr (by rw [Find_returned_eq hb hnd h])
  | panicked msg =>
    exfalso
    rw [Find_serving, hb] at h
    cases hr : run lib (some b) pattern State.init sched with
    | none => simp [hr] at h
    | some s =>
      simp only [hr, Option.map_some', Option.some.injEq] at h
      have hp := (outcome_panicked_iff s msg).mp h
      have := (Inv.init lib b pattern).init_panic hsub rfl hr
      rw [this] at hp
      cases hp

/-- On an existing bucket whose matching paths hold sub-buckets, every schedule can be
continued until `Find` has returned. -/
theorem Find_extends {lib : Lib} {tx : Tx} {archive pattern : String} {b : Bucket}
    (hb : Tx.Bucket tx archive = some b)
    (hnd : ((emitted lib b pattern).map FindResult.path).Nodup)
    (hsub : ∀ path ∈ Bucket.keys b, lib.Match pattern path 0 = true →
      Bucket.Bucket b path ≠ none)
    {sched : List Label} (h : Find lib (DB.serving tx) archive pattern sched ≠ none) :
    ∃ more, Find lib (DB.serving tx) archive pattern (sched ++ more) =
      some (Outcome.returned (collectResults [] (emitted lib b pattern))) := by
  rw [Find_serving, hb] at h
  cases hr : run lib (some b) pattern State.init sched with
  | none => simp [hr] at h
  | some s =>
    have hinv := (Inv.init lib b pattern).along hr
    have hp := (Inv.init lib b pattern).init_panic hsub rfl hr
    obtain ⟨more, s', hrun, hret, hp'⟩ := Inv.reach_returned hsub _ s (le_refl _) hinv hp
    refine ⟨more, ?_⟩
    have hfull : run lib (some b) pattern State.init (sched ++ more) = some s' := by
      rw [run_append, hr]
      exact hrun
    have hmap := (hinv.along hrun).returned_map hnd hret
    rw [Find_serving, hb, hfull]
    simp only [Option.map_some', Option.some.injEq]
    exact (outcome_returned_iff s' _).mpr ⟨hp', hret, hmap⟩

/-- A schedule of `Find` on a bucket of `n` keys has at most `4 * n + 1032` steps. -/
theorem Find_length {lib : Lib} {tx : Tx} {archive pattern : String} {sched : List Label}
    (h : Find lib (DB.serving tx) archive pattern sched ≠ none) :
    sched.length ≤ 4 * keyCount (Tx.Bucket tx archive) + 1032 := by
  rw [Find_serving] at h
  cases hr : run lib (Tx.Bucket tx archive) pattern State.init sched with
  | none => simp [hr] at h
  | some s =>
    have := run_length hr
    rw [measure_init] at this
    omega

/-- On a nil bucket `Find` does not return. -/
theorem Find_nil_outcome {lib : Lib} {tx : Tx} {archive pattern : String}
    (hb : Tx.Bucket tx archive = none) {sched : List Label}
    {o : Outcome (GoMap (List String))}
    (h : Find lib (DB.serving tx) archive pattern sched = some o) :
    o = Outcome.running ∨ o = Outcome.panicked nilBucket := by
  rw [Find_serving, hb] at h
  cases hr : run lib none pattern State.init sched with
  | none => simp [hr] at h
  | some s =>
    simp only [hr, Option.map_some', Option.some.injEq] at h
    have hinv := InvNil.nil_init.nil_along hr
    subst h
    unfold State.outcome
    rcases hinv.panic with hp | hp
    · simp [hp, hinv.going]
    · simp [hp]

/-- On a nil bucket the producer is about to panic for as long as `Find` runs. -/
theorem Find_nil_panics {lib : Lib} {tx : Tx} {archive pattern : String}
    (hb : Tx.Bucket tx archive = none) {sched : List Label}
    (h : Find lib (DB.serving tx) archive pattern sched = some Outcome.running) :
    Find lib (DB.serving tx) archive pattern (sched ++ [Label.forEach]) =
      some (Outcome.panicked nilBucket) := by
  rw [Find_serving, hb] at h ⊢
  cases hr : run lib none pattern State.init sched with
  | none => simp [hr] at h
  | some s =>
    simp only [hr, Option.map_some', Option.some.injEq] at h
    have hinv := InvNil.nil_init.nil_along hr
    have hp := ((outcome_running_iff s).mp h).1
    rw [run_append, hr]
    show Option.map State.outcome (run lib none pattern s [Label.forEach]) = _
    simp only [run, step_complete (Step.forEachNil hp hinv.producer rfl)]
    simp [State.outcome]

/-! ## The handler -/

theorem stringInSlice_iff (a : String) (list : List String) :
    stringInSlice a list = true ↔ a ∈ list := by
  induction list with
  | nil => simp [stringInSlice]
  | cons b rest ih =>
    unfold stringInSlice
    by_cases h : b = a
    · simp [h]
    · have : ¬ a = b := fun e => h e.symm
      simp [h, ih, this]

theorem jsonStringMap_nil (lib : Lib) : jsonStringMap lib [] = emptyObject := by
  show jsonObject [] = emptyObject
  decide

theorem jsonFindMap_nil (lib : Lib) : jsonFindMap lib [] = emptyObject := by
  show jsonObject [] = emptyObject
  decide

theorem v1_find_gate {lib : Lib} {db : Database} {c : Context}
    (h : strings.TrimPrefix c.archive "/" ∉ db.GetKeys "archives") (sched : List Label) :
    v1_find lib db c sched =
      { outcome := some (Outcome.returned ⟨200, emptyObject⟩), finds := [] } := by
  have hs : stringInSlice (strings.TrimPrefix c.archive "/") (db.GetKeys "archives") = false := by
    cases hc : stringInSlice (strings.TrimPrefix c.archive "/") (db.GetKeys "archives") with
    | false => rfl
    | true => exact absurd ((stringInSlice_iff _ _).mp hc) h
  simp [v1_find, hs, jsonStringMap_nil]

/-! ## Literal patterns -/

theorem fnmatch.matchFrom_literal (p : List Char) (hp : ∀ c ∈ p, fnmatch.isMeta c = false)
    (s : List Char) : fnmatch.matchFrom p fnmatch.Mode.top s = true ↔ s = p := by
  induction p generalizing s with
  | nil => simp [fnmatch.matchFrom]
  | cons c p ih =>
    have hc := hp c (List.mem_cons_self _ _)
    simp only [fnmatch.isMeta, Bool.or_eq_false_iff, decide_eq_false_iff_not] at hc
    obtain ⟨⟨⟨h1, h2⟩, h3⟩, h4⟩ := hc
    have ih' := ih (fun x hx => hp x (List.mem_cons_of_mem _ hx))
    cases s with
    | nil => simp [fnmatch.matchFrom, h1, h4]
    | cons sc s' =>
      simp only [fnmatch.matchFrom, h1, h2, h3, h4, if_false, Bool.and_eq_true,
        decide_eq_true_eq, ih', List.cons.injEq]

/-! ## Further invariants of the channels -/

theorem closedChannel_ne : some nilBucket ≠ some closedChannel := by decide

theorem Inv.panic_step {lib : Lib} {bk : Bucket} {pattern : String} {s s' : State} {l : Label}
    (hinv : Inv lib bk pattern s) (hp : s.panic ≠ some closedChannel)
    (h : Step lib (some bk) pattern s l s') : s'.panic ≠ some closedChannel := by
  cases h with
  | forEachNil hp' hs hb => exact closedChannel_ne
  | computeNil i a hp' hw hm hn => exact closedChannel_ne
  | sendClosed i r hp' hw hc =>
    exact absurd hc (hinv.not_closed_of_sending (mem_of_getElem? hw) (fun c => by cases c))
  | spawn hp' hm hl => exact hp
  | startCloser hp' hm hl => exact hp
  | forEach bk' hp' hs hb => exact hp
  | recv i path rest bk' hp' hs hb hw => exact hp
  | closeInput hp' hs => exact hp
  | computeNo i a hp' hw hm => exact hp
  | computeYes i a sub hp' hw hm hn => exact hp
  | send i r hp' hw hc hl => exact hp
  | exit i hp' hw hs => exact hp
  | closeOutput hp' hc hz => exact hp
  | collect r rest hp' hm ho => exact hp
  | finish hp' hm ho hc => exact hp

theorem Inv.panic_along {lib : Lib} {bk : Bucket} {pattern : String} {sched : List Label} :
    ∀ {s s' : State}, Inv lib bk pattern s → s.panic ≠ some closedChannel →
      run lib (some bk) pattern s sched = some s' → s'.panic ≠ some closedChannel := by
  induction sched with
  | nil =>
    intro s s' _ hp h
    simp only [run, Option.some.injEq] at h
    exact h ▸ hp
  | cons l ls ih =>
    intro s s' hinv hp h
    simp only [run] at h
    cases hs : step lib (some bk) pattern s l with
    | none => simp [hs] at h
    | some s1 =>
      simp only [hs] at h
      exact ih (hinv.preserved (step_sound hs)) (hinv.panic_step hp (step_sound hs)) h

/-- The order of events on the two channels, in every state `Find` reaches. -/
theorem channels_order {lib : Lib} {b : Option Bucket} {pattern : String}
    {sched : List Label} {s : State} (h : run lib b pattern State.init sched = some s) :
    (s.closer = Closer.closed →
        s.workers.length = workerCount ∧ (∀ w ∈ s.workers, w = Worker.exited) ∧
          s.producer = Producer.finished) ∧
      (Worker.exited ∈ s.workers → s.producer = Producer.finished) ∧
      (∀ (i : Nat) (r : FindResult), s.workers[i]? = some (Worker.sending r) →
        s.closer ≠ Closer.closed) ∧
      s.panic ≠ some closedChannel ∧
      (s.main = Main.returned →
        s.output = [] ∧ s.closer = Closer.closed ∧ ∀ w ∈ s.workers, w = Worker.exited) := by
  cases b with
  | none =>
    have hinv := InvNil.nil_init.nil_along h
    refine ⟨fun hc => absurd hc hinv.opened, ?_, fun _ _ _ => hinv.opened, ?_,
      fun hm => absurd hm hinv.going⟩
    · intro hex
      have := hinv.idle _ hex
      cases this
    · rcases hinv.panic with hp | hp
      · rw [hp]; intro c; cases c
      · rw [hp]; exact closedChannel_ne
  | some bk =>
    have hinv := (Inv.init lib bk pattern).along h
    have hclosed : s.closer = Closer.closed →
        s.workers.length = workerCount ∧ (∀ w ∈ s.workers, w = Worker.exited) ∧
          s.producer = Producer.finished := by
      intro hc
      have hz := hinv.closed hc
      rw [hinv.wg] at hz
      have hall := alive_sum_eq_zero hz
      have hns : s.main ≠ Main.spawning := by
        intro hm
        have := hinv.early hm
        rw [hc] at this
        cases this
      have hlen := (hinv.late hns).1
      refine ⟨hlen, hall, ?_⟩
      apply hinv.exits
      cases hws : s.workers with
      | nil => rw [hws] at hlen; simp [workerCount] at hlen
      | cons w ws =>
        have := hall w (by rw [hws]; exact List.mem_cons_self _ _)
        rw [this]
        exact List.mem_cons_self _ _
    refine ⟨hclosed, hinv.exits, ?_, ?_, ?_⟩
    · intro i r hw
      exact hinv.not_closed_of_sending (mem_of_getElem? hw) (fun c => by cases c)
    · exact (Inv.init lib bk pattern).panic_along (by simp [State.init]) h
    · intro hm
      have hd := hinv.done hm
      exact ⟨hd.1, hd.2, (hclosed hd.2).2.1⟩

/-! ## Lemmas for the handler on a known archive and for the anchoring example -/

theorem resultsFor_no_match {lib : Lib} {b : Bucket} {pattern : String} {paths : List String}
    (h : ∀ path ∈ paths, lib.Match pattern path 0 = false) :
    resultsFor lib b pattern paths = [] := by
  induction paths with
  | nil => rfl
  | cons p rest ih =>
    rw [resultsFor_cons, ih (fun q hq => h q (List.mem_cons_of_mem _ hq))]
    simp [resultOf, h p (List.mem_cons_self _ _)]

theorem v1_find_known {lib : Lib} {db : Database} {c : Context}
    (h : strings.TrimPrefix c.archive "/" ∈ db.GetKeys "archives") (sched : List Label) :
    (v1_find lib db c sched).outcome =
      (Find lib db.bolt (strings.TrimPrefix c.archive "/") c.q sched).map (respond lib) := by
  have hs := (stringInSlice_iff _ _).mpr h
  simp only [v1_find, hs, not_true_eq_false, if_false]

theorem match_so :
    fnmatch.Match "*.so" "/usr/bin/ls" 0 = false ∧
      fnmatch.Match "*.so" "/usr/lib/libfoo.so" 0 = true ∧
      fnmatch.Match "*.so" "/usr/lib/libfoo.so.1" 0 = false ∧
      fnmatch.Match "*.so" "/usr/local/bin/ls" 0 = false := by
  decide

theorem match_bin :
    fnmatch.Match "/usr/bin/*" "/usr/bin/ls" 0 = true ∧
      fnmatch.Match "/usr/bin/*" "/usr/lib/libfoo.so" 0 = false ∧
      fnmatch.Match "/usr/bin/*" "/usr/lib/libfoo.so.1" 0 = false ∧
      fnmatch.Match "/usr/bin/*" "/usr/local/bin/ls" 0 = false := by
  decide

theorem fourPaths_keys (e1 e2 e3 e4 : Bucket) :
    Bucket.keys (fourPaths e1 e2 e3 e4) =
      ["/usr/bin/ls", "/usr/lib/libfoo.so", "/usr/lib/libfoo.so.1", "/usr/local/bin/ls"] := rfl

theorem fourPaths_sub (e1 e2 e3 e4 : Bucket) :
    Bucket.Bucket (fourPaths e1 e2 e3 e4) "/usr/bin/ls" = some e1 ∧
      Bucket.Bucket (fourPaths e1 e2 e3 e4) "/usr/lib/libfoo.so" = some e2 ∧
      Bucket.Bucket (fourPaths e1 e2 e3 e4) "/usr/lib/libfoo.so.1" = some e3 ∧
      Bucket.Bucket (fourPaths e1 e2 e3 e4) "/usr/local/bin/ls" = some e4 := by
  refine ⟨?_, ?_, ?_, ?_⟩ <;> simp [fourPaths, Bucket.Bucket, Bucket.lookup]

theorem fourPaths_emitted_so (enc : String → String) (e1 e2 e3 e4 : Bucket) :
    emitted (globLib enc) (fourPaths e1 e2 e3 e4) "*.so" =
      [⟨"/usr/lib/libfoo.so", Bucket.keys e2⟩] := by
  obtain ⟨h1, h2, h3, h4⟩ := match_so
  obtain ⟨_, s2, _, _⟩ := fourPaths_sub e1 e2 e3 e4
  simp [emitted, fourPaths_keys, resultsFor, resultOf, globLib, h1, h2, h3, h4, s2]

theorem fourPaths_emitted_bin (enc : String → String) (e1 e2 e3 e4 : Bucket) :
    emitted (globLib enc) (fourPaths e1 e2 e3 e4) "/usr/bin/*" =
      [⟨"/usr/bin/ls", Bucket.keys e1⟩] := by
  obtain ⟨h1, h2, h3, h4⟩ := match_bin
  obtain ⟨s1, _, _, _⟩ := fourPaths_sub e1 e2 e3 e4
  simp [emitted, fourPaths_keys, resultsFor, resultOf, globLib, h1, h2, h3, h4, s1]

theorem fourPaths_holds (e1 e2 e3 e4 : Bucket) :
    ∀ path ∈ Bucket.keys (fourPaths e1 e2 e3 e4),
      Bucket.Bucket (fourPaths e1 e2 e3 e4) path ≠ none := by
  obtain ⟨s1, s2, s3, s4⟩ := fourPaths_sub e1 e2 e3 e4
  intro path hp
  rw [fourPaths_keys] at hp
  simp only [List.mem_cons, List.mem_singleton, List.not_mem_nil, or_false] at hp
  rcases hp with h | h | h | h <;> subst h <;> simp [s1, s2, s3, s4]

/-! ## The claims -/

/-- C1. For an archive whose bucket `b` exists (keys distinct, as in any bolt bucket, and
every matching path holding a sub-bucket, as the index layout has it), `Find` never
panics, every schedule of its goroutines is finite and can be continued until `Find`
has returned, and the map it returns has exactly the paths of `b` that
`fnmatch.Match(pattern, path, 0)` accepts as keys, each with all keys of its sub-bucket
in the store's iteration order. -/
theorem Find_contract (lib : Lib) (tx : Tx) (archive pattern : String) (b : Bucket)
    (hb : Tx.Bucket tx archive = some b)
    (hk : (Bucket.keys b).Nodup)
    (hsub : ∀ path ∈ Bucket.keys b, lib.Match pattern path 0 = true →
      (Bucket.Bucket b path).isSome = true) :
    (∀ sched o, Find lib (DB.serving tx) archive pattern sched = some o →
        o = Outcome.running ∨ ∃ m, o = Outcome.returned m ∧
          m = collectResults [] (emitted lib b pattern) ∧
          ∀ path, GoMap.index m path =
            if path ∈ Bucket.keys b ∧ lib.Match pattern path 0 = true then
              (Bucket.Bucket b path).map Bucket.keys
            else none) ∧
      (∀ sched, Find lib (DB.serving tx) archive pattern sched ≠ none →
        sched.length ≤ 4 * (Bucket.keys b).length + 1032 ∧
          ∃ more m, Find lib (DB.serving tx) archive pattern (sched ++ more) =
            some (Outcome.returned m)) := by
  have hnd := emitted_nodup lib b pattern hk
  have hsub : ∀ path ∈ Bucket.keys b, lib.Match pattern path 0 = true →
      Bucket.Bucket b path ≠ none := fun path hp hm hn => by
    have := hsub path hp hm
    rw [hn] at this
    cases this
  refine ⟨?_, ?_⟩
  · intro sched o h
    rcases Find_outcome hb hnd hsub h with h' | h'
    · exact Or.inl h'
    · exact Or.inr ⟨_, h', rfl, index_emitted lib b pattern hk⟩
  · intro sched h
    refine ⟨?_, ?_⟩
    · have := Find_length h
      rw [hb] at this
      exact this
    · obtain ⟨more, hm⟩ := Find_extends hb hnd hsub h
      exact ⟨more, _, hm⟩

/-- C1, on the sample store: `Find("neon", "/usr/lib/*")` can run to its return, and the
map it returns gives `/usr/lib/libfoo.so` its two packages and has no `/usr/bin/ls`. -/
theorem Find_contract_witness :
    Tx.Bucket sampleTx "neon" = some sampleBucket ∧
      ∃ sched m, Find (globLib id) (DB.serving sampleTx) "neon" "/usr/lib/*" sched =
          some (Outcome.returned m) ∧
        GoMap.index m "/usr/lib/libfoo.so" = some ["libfoo", "libfoo-dev"] ∧
        GoMap.index m "/usr/bin/ls" = none := by
  have hb : Tx.Bucket sampleTx "neon" = some sampleBucket := rfl
  have h := Find_contract (globLib id) sampleTx "neon" "/usr/lib/*" sampleBucket hb
    (by decide) (by decide)
  obtain ⟨more, m, hm⟩ := (h.2 [] (by simp [Find_serving, run])).2
  rcases h.1 _ _ hm with h' | ⟨m', hm', _, hidx⟩
  · cases h'
  · cases hm'
    refine ⟨hb, more, m, hm, ?_, ?_⟩
    · rw [hidx]; decide
    · rw [hidx]; decide

/-- C3. When the archive parameter, one leading `/` stripped, is not among
`db.GetKeys("archives")`, `v1_find` answers 200 with the empty JSON object and makes no
call of `Find`, whatever the query, the store and the schedule are. -/
theorem v1_find_unknown_archive (lib : Lib) (db : Database) (c : Context)
    (sched : List Label) (h : strings.TrimPrefix c.archive "/" ∉ db.GetKeys "archives") :
    v1_find lib db c sched =
      { outcome := some (Outcome.returned { status := 200, body := emptyObject }), finds := [] } :=
  v1_find_gate h sched

/-- C3, on a store that fails and knows one archive: a request for `/ubuntu` gets `{}`. -/
theorem v1_find_unknown_archive_witness :
    strings.TrimPrefix "/ubuntu" "/" ∉ ["neon"] ∧
      v1_find (globLib id) { bolt := DB.failing "disk", GetKeys := fun _ => ["neon"] }
          { archive := "/ubuntu", q := "*" } [] =
        { outcome := some (Outcome.returned { status := 200, body := emptyObject }), finds := [] } :=
  ⟨by decide,
   v1_find_unknown_archive (globLib id)
     { bolt := DB.failing "disk", GetKeys := fun _ => ["neon"] }
     { archive := "/ubuntu", q := "*" } [] (by decide)⟩

/-- C4 as stated fails: on a store without the bucket `neon`, `Find("neon", "*")` panics
with a nil dereference as soon as the producer runs, and on no schedule does it return
the empty map. -/
theorem Find_missing_bucket_counterexample :
    Tx.Bucket { root := [] } "neon" = none ∧
      Find (globLib id) (DB.serving { root := [] }) "neon" "*" [Label.forEach] =
        some (Outcome.panicked nilBucket) ∧
      ∀ sched, Find (globLib id) (DB.serving { root := [] }) "neon" "*" sched ≠
        some (Outcome.returned []) := by
  refine ⟨rfl, rfl, ?_⟩
  intro sched h
  have hb : Tx.Bucket { root := [] } "neon" = none := rfl
  rcases Find_nil_outcome hb h with h' | h' <;> cases h'

/-- C4 amended. For an archive that names no bucket, `Find` returns no map on any
schedule: it runs until the producer's `b.ForEach` on the nil bucket, which can happen at
any moment and panics with a nil dereference, the only way it ends. -/
theorem Find_missing_bucket (lib : Lib) (tx : Tx) (archive pattern : String)
    (hb : Tx.Bucket tx archive = none) :
    (∀ sched o, Find lib (DB.serving tx) archive pattern sched = some o →
        o = Outcome.running ∨ o = Outcome.panicked nilBucket) ∧
      (∀ sched, Find lib (DB.serving tx) archive pattern sched = some Outcome.running →
        Find lib (DB.serving tx) archive pattern (sched ++ [Label.forEach]) =
          some (Outcome.panicked nilBucket)) ∧
      Find lib (DB.serving tx) archive pattern [Label.forEach] =
        some (Outcome.panicked nilBucket) := by
  refine ⟨fun sched o h => Find_nil_outcome hb h, fun sched h => Find_nil_panics hb h, ?_⟩
  have h0 : Find lib (DB.serving tx) archive pattern [] = some Outcome.running := rfl
  exact Find_nil_panics hb h0

/-- C4 amended, on the sample store: it has no bucket `ubuntu`, and `Find("ubuntu", "*")`
panics. -/
theorem Find_missing_bucket_witness :
    Tx.Bucket sampleTx "ubuntu" = none ∧
      Find (globLib id) (DB.serving sampleTx) "ubuntu" "*" [Label.forEach] =
        some (Outcome.panicked nilBucket) :=
  ⟨rfl, (Find_missing_bucket (globLib id) sampleTx "ubuntu" "*" rfl).2.2⟩

/-- C5 as stated fails: when `View` reports the error `disk full`, `Find` panics with it
and returns no empty map. -/
theorem Find_store_error_counterexample :
    Find (globLib id) (DB.failing "disk full") "neon" "*" [] =
        some (Outcome.panicked "disk full") ∧
      Find (globLib id) (DB.failing "disk full") "neon" "*" [] ≠ some (Outcome.returned []) := by
  refine ⟨rfl, ?_⟩
  intro h
  cases h

/-- C5 amended. When `View` reports an error, `Find` panics with that error, for every
archive and pattern; it returns no map. -/
theorem Find_store_error (lib : Lib) (err archive pattern : String) (sched : List Label) :
    Find lib (DB.failing err) archive pattern sched = some (Outcome.panicked err) := rfl

/-- C10. `stringInSlice(a, list)` is true exactly when some element of `list` equals `a`;
it is false for the empty list, so that `v1_find` turns every archive away, with the
empty object, when `db.GetKeys("archives")` is empty. -/
theorem stringInSlice_spec :
    (∀ (a : String) (list : List String),
        stringInSlice a list = true ↔ ∃ b, b ∈ list ∧ b = a) ∧
      (∀ a : String, stringInSlice a [] = false) ∧
      (∀ (lib : Lib) (db : Database) (c : Context) (sched : List Label),
        db.GetKeys "archives" = [] →
          v1_find lib db c sched =
            { outcome := some (Outcome.returned { status := 200, body := emptyObject }),
              finds := [] }) := by
  refine ⟨?_, fun _ => rfl, ?_⟩
  · intro a list
    rw [stringInSlice_iff]
    constructor
    · intro h; exact ⟨a, h, rfl⟩
    · rintro ⟨b, hb, rfl⟩; exact hb
  · intro lib db c sched h
    exact v1_find_gate (by rw [h]; simp) sched

/-- C2. With the glob matcher, `*.so` matches `/usr/lib/libfoo.so` and not
`/usr/lib/libfoo.so.1`, and `/usr/bin/*` matches `/usr/bin/ls` and not
`/usr/local/bin/ls`; on a bucket of these four paths `Find` with `*.so` runs to its
return and returns only `/usr/lib/libfoo.so`, and with `/usr/bin/*` only `/usr/bin/ls`. -/
theorem Find_anchored (enc : String → String) (tx : Tx) (archive : String)
    (e1 e2 e3 e4 : Bucket) (hb : Tx.Bucket tx archive = some (fourPaths e1 e2 e3 e4)) :
    (fnmatch.Match "*.so" "/usr/lib/libfoo.so" 0 = true ∧
        fnmatch.Match "*.so" "/usr/lib/libfoo.so.1" 0 = false ∧
        fnmatch.Match "/usr/bin/*" "/usr/bin/ls" 0 = true ∧
        fnmatch.Match "/usr/bin/*" "/usr/local/bin/ls" 0 = false) ∧
      (∀ sched o, Find (globLib enc) (DB.serving tx) archive "*.so" sched = some o →
        o = Outcome.running ∨
          o = Outcome.returned [("/usr/lib/libfoo.so", Bucket.keys e2)]) ∧
      (∃ sched, Find (globLib enc) (DB.serving tx) archive "*.so" sched =
        some (Outcome.returned [("/usr/lib/libfoo.so", Bucket.keys e2)])) ∧
      (∀ sched o, Find (globLib enc) (DB.serving tx) archive "/usr/bin/*" sched = some o →
        o = Outcome.running ∨ o = Outcome.returned [("/usr/bin/ls", Bucket.keys e1)]) ∧
      (∃ sched, Find (globLib enc) (DB.serving tx) archive "/usr/bin/*" sched =
        some (Outcome.returned [("/usr/bin/ls", Bucket.keys e1)])) := by
  have hk : (Bucket.keys (fourPaths e1 e2 e3 e4)).Nodup := by
    rw [fourPaths_keys]; decide
  have hsub : ∀ (pattern : String), ∀ path ∈ Bucket.keys (fourPaths e1 e2 e3 e4),
      (globLib enc).Match pattern path 0 = true →
        Bucket.Bucket (fourPaths e1 e2 e3 e4) path ≠ none :=
    fun _ path hp _ => fourPaths_holds e1 e2 e3 e4 path hp
  have hso : collectResults [] (emitted (globLib enc) (fourPaths e1 e2 e3 e4) "*.so") =
      [("/usr/lib/libfoo.so", Bucket.keys e2)] := by
    rw [fourPaths_emitted_so]; rfl
  have hbin : collectResults [] (emitted (globLib enc) (fourPaths e1 e2 e3 e4) "/usr/bin/*") =
      [("/usr/bin/ls", Bucket.keys e1)] := by
    rw [fourPaths_emitted_bin]; rfl
  refine ⟨⟨match_so.2.1, match_so.2.2.1, match_bin.1, match_bin.2.2.2⟩, ?_, ?_, ?_, ?_⟩
  · intro sched o h
    have := Find_outcome hb (emitted_nodup _ _ _ hk) (hsub _) h
    rwa [hso] at this
  · have h0 : Find (globLib enc) (DB.serving tx) archive "*.so" [] ≠ none := by
      simp [Find_serving, run]
    obtain ⟨more, hm⟩ := Find_extends hb (emitted_nodup _ _ _ hk) (hsub "*.so") h0
    exact ⟨_, hso ▸ hm⟩
  · intro sched o h
    have := Find_outcome hb (emitted_nodup _ _ _ hk) (hsub _) h
    rwa [hbin] at this
  · have h0 : Find (globLib enc) (DB.serving tx) archive "/usr/bin/*" [] ≠ none := by
      simp [Find_serving, run]
    obtain ⟨more, hm⟩ := Find_extends hb (emitted_nodup _ _ _ hk) (hsub "/usr/bin/*") h0
    exact ⟨_, hbin ▸ hm⟩

/-- C2, on a store whose archive `neon` holds the four paths, each with one package:
`Find("neon", "*.so")` returns `/usr/lib/libfoo.so` with its package on some schedule. -/
theorem Find_anchored_witness :
    Tx.Bucket anchorTx "neon" =
        some (fourPaths [("coreutils", Node.value "")] [("libfoo-dev", Node.value "")]
          [("libfoo1", Node.value "")] [("mytools", Node.value "")]) ∧
      ∃ sched, Find (globLib id) (DB.serving anchorTx) "neon" "*.so" sched =
        some (Outcome.returned [("/usr/lib/libfoo.so", ["libfoo-dev"])]) :=
  ⟨rfl,
   (Find_anchored id anchorTx "neon" [("coreutils", Node.value "")]
     [("libfoo-dev", Node.value "")] [("libfoo1", Node.value "")]
     [("mytools", Node.value "")] rfl).2.2.1⟩

/-- C6. `v1_find` answers an unknown archive and a known archive in which no path matches
the query alike: the first gets 200 and `{}` at once; the second, whose bucket exists,
gets nothing else than 200 and `{}` on any schedule, and every schedule can be continued
until it has got it. -/
theorem v1_find_unknown_like_no_match (lib : Lib) (db1 db2 : Database) (c1 c2 : Context)
    (tx : Tx) (b : Bucket)
    (hunknown : strings.TrimPrefix c1.archive "/" ∉ db1.GetKeys "archives")
    (hknown : strings.TrimPrefix c2.archive "/" ∈ db2.GetKeys "archives")
    (hserve : db2.bolt = DB.serving tx)
    (hb : Tx.Bucket tx (strings.TrimPrefix c2.archive "/") = some b)
    (hnomatch : ∀ path ∈ Bucket.keys b, lib.Match c2.q path 0 = false) :
    (∀ sched, (v1_find lib db1 c1 sched).outcome =
        some (Outcome.returned { status := 200, body := emptyObject })) ∧
      (∀ sched o, (v1_find lib db2 c2 sched).outcome = some o →
        o = Outcome.running ∨ o = Outcome.returned { status := 200, body := emptyObject }) ∧
      (∀ sched, (v1_find lib db2 c2 sched).outcome ≠ none →
        ∃ more, (v1_find lib db2 c2 (sched ++ more)).outcome =
          some (Outcome.returned { status := 200, body := emptyObject })) := by
  have hem : emitted lib b c2.q = [] := resultsFor_no_match hnomatch
  have hnd : ((emitted lib b c2.q).map FindResult.path).Nodup := by rw [hem]; exact List.nodup_nil
  have hsub : ∀ path ∈ Bucket.keys b, lib.Match c2.q path 0 = true →
      Bucket.Bucket b path ≠ none := fun path hp hm => by
    rw [hnomatch path hp] at hm
    cases hm
  have hcol : collectResults [] (emitted lib b c2.q) = [] := by rw [hem]; rfl
  refine ⟨fun sched => by rw [v1_find_gate hunknown sched], ?_, ?_⟩
  · intro sched o h
    rw [v1_find_known hknown, hserve] at h
    cases hf : Find lib (DB.serving tx) (strings.TrimPrefix c2.archive "/") c2.q sched with
    | none => simp [hf] at h
    | some o' =>
      simp only [hf, Option.map_some', Option.some.injEq] at h
      subst h
      rcases Find_outcome hb hnd hsub hf with h' | h'
      · exact Or.inl (by rw [h']; rfl)
      · refine Or.inr ?_
        rw [h', hcol]
        simp [respond, jsonFindMap_nil]
  · intro sched h
    rw [v1_find_known hknown, hserve] at h
    have hf : Find lib (DB.serving tx) (strings.TrimPrefix c2.archive "/") c2.q sched ≠ none := by
      intro hn
      rw [hn] at h
      exact h rfl
    obtain ⟨more, hm⟩ := Find_extends hb hnd hsub hf
    refine ⟨more, ?_⟩
    rw [v1_find_known hknown, hserve, hm, hcol]
    simp [respond, jsonFindMap_nil]

/-- C6, on the sample store: a request for the unknown `/ubuntu` and a request for the
known `/neon` with the query `*.txt`, which no path matches, both get 200 and `{}`. -/
theorem v1_find_unknown_like_no_match_witness :
    (v1_find (globLib id) { bolt := DB.serving sampleTx, GetKeys := fun _ => ["neon"] }
        { archive := "/ubuntu", q := "*.txt" } []).outcome =
        some (Outcome.returned { status := 200, body := emptyObject }) ∧
      ∃ sched,
        (v1_find (globLib id) { bolt := DB.serving sampleTx, GetKeys := fun _ => ["neon"] }
          { archive := "/neon", q := "*.txt" } sched).outcome =
          some (Outcome.returned { status := 200, body := emptyObject }) := by
  have h := v1_find_unknown_like_no_match (globLib id)
    { bolt := DB.serving sampleTx, GetKeys := fun _ => ["neon"] }
    { bolt := DB.serving sampleTx, GetKeys := fun _ => ["neon"] }
    { archive := "/ubuntu", q := "*.txt" } { archive := "/neon", q := "*.txt" }
    sampleTx sampleBucket (by decide) (by decide) rfl rfl (by decide)
  exact ⟨h.1 [], h.2.2 [] (by decide)⟩

/-- C7. On an existing bucket with distinct paths, any two schedules on which `Find`
returns give the same map: the one that the collection loop builds from the emitted
results in the store's order, and that it builds from every permutation of them. -/
theorem Find_deterministic (lib : Lib) (tx : Tx) (archive pattern : String) (b : Bucket)
    (hb : Tx.Bucket tx archive = some b) (hk : (Bucket.keys b).Nodup) :
    (∀ sched1 sched2 m1 m2,
        Find lib (DB.serving tx) archive pattern sched1 = some (Outcome.returned m1) →
        Find lib (DB.serving tx) archive pattern sched2 = some (Outcome.returned m2) →
        m1 = m2) ∧
      (∀ sched m, Find lib (DB.serving tx) archive pattern sched = some (Outcome.returned m) →
        m = collectResults [] (emitted lib b pattern)) ∧
      (∀ rs, List.Perm rs (emitted lib b pattern) →
        collectResults [] rs = collectResults [] (emitted lib b pattern)) := by
  have hnd := emitted_nodup lib b pattern hk
  refine ⟨?_, fun sched m h => Find_returned_eq hb hnd h, ?_⟩
  · intro sched1 sched2 m1 m2 h1 h2
    rw [Find_returned_eq hb hnd h1, Find_returned_eq hb hnd h2]
  · intro rs hp
    exact collectResults_perm hp ((hp.map _).nodup_iff.mpr hnd) []

/-- C7, on the sample store: the two emitted results of the query `*`, collected in the
reverse of the store's order, give the map that `Find` returns. -/
theorem Find_deterministic_witness :
    Tx.Bucket sampleTx "neon" = some sampleBucket ∧ (Bucket.keys sampleBucket).Nodup ∧
      collectResults [] [⟨"/usr/lib/libfoo.so", ["libfoo", "libfoo-dev"]⟩,
          ⟨"/usr/bin/ls", ["coreutils"]⟩] =
        collectResults [] (emitted (globLib id) sampleBucket "*") :=
  ⟨rfl, by decide,
   (Find_deterministic (globLib id) sampleTx "neon" "*" sampleBucket rfl (by decide)).2.2 _
     (List.Perm.swap _ _ [])⟩

/-- C8. For a pattern without `*`, `?`, `[` and backslash, the glob matcher accepts a path
exactly when the path equals the pattern; a path that differs from it, be it in letter
case only or by having the pattern as a proper part, is not accepted. -/
theorem Match_literal (pattern path : String)
    (h : ∀ c ∈ pattern.data, fnmatch.isMeta c = false) :
    (fnmatch.Match pattern path 0 = true ↔ path = pattern) ∧
      (path ≠ pattern → fnmatch.Match pattern path 0 = false) := by
  have hiff : fnmatch.Match pattern path 0 = true ↔ path = pattern := by
    unfold fnmatch.Match
    rw [fnmatch.matchFrom_literal _ h]
    constructor
    · intro e; exact String.ext e
    · intro e; rw [e]
  refine ⟨hiff, fun hne => ?_⟩
  cases hm : fnmatch.Match pattern path 0 with
  | false => rfl
  | true => exact absurd (hiff.mp hm) hne

/-- C8, for the pattern `/usr/bin/ls`: it does not match `/usr/bin/LS`. -/
theorem Match_literal_witness :
    (∀ c ∈ "/usr/bin/ls".data, fnmatch.isMeta c = false) ∧
      fnmatch.Match "/usr/bin/ls" "/usr/bin/LS" 0 = false :=
  ⟨by decide, (Match_literal "/usr/bin/ls" "/usr/bin/LS" (by decide)).2 (by decide)⟩

/-- C9. In every state that the goroutines of `Find` reach: `output` is closed only when
all 512 workers have exited, a worker has exited only when the producer is through the
bucket and has closed `input`, no worker is sending while `output` is closed and no send
on a closed channel has happened, the collection loop is over only when `output` is
closed and empty and every worker has exited, and it can end as soon as `output` is closed
and empty. -/
theorem Find_channels (lib : Lib) (b : Option Bucket) (pattern : String)
    (sched : List Label) (s : State) (h : run lib b pattern State.init sched = some s) :
    (s.closer = Closer.closed →
        s.workers.length = workerCount ∧ (∀ w ∈ s.workers, w = Worker.exited) ∧
          s.producer = Producer.finished) ∧
      (Worker.exited ∈ s.workers → s.producer = Producer.finished) ∧
      (∀ (i : Nat) (r : FindResult), s.workers[i]? = some (Worker.sending r) →
        s.closer ≠ Closer.closed) ∧
      s.panic ≠ some closedChannel ∧
      (s.main = Main.returned →
        s.output = [] ∧ s.closer = Closer.closed ∧ ∀ w ∈ s.workers, w = Worker.exited) ∧
      (s.panic = none → s.main = Main.collecting → s.output = [] →
        s.closer = Closer.closed →
          step lib b pattern s Label.finish = some { s with main := Main.returned }) := by
  obtain ⟨h1, h2, h3, h4, h5⟩ := channels_order h
  exact ⟨h1, h2, h3, h4, h5, fun hp hm ho hc => step_complete (Step.finish hp hm ho hc)⟩

/-- C9, on the sample bucket after four steps: worker 0 is sending the result for
`/usr/bin/ls`, and `output` is not closed. -/
theorem Find_channels_witness :
    ∃ s, run (globLib id) (some sampleBucket) "/usr/bin/*" State.init
        [Label.spawn, Label.forEach, Label.recv 0, Label.compute 0] = some s ∧
      s.workers[0]? = some (Worker.sending ⟨"/usr/bin/ls", ["coreutils"]⟩) ∧
      s.closer ≠ Closer.closed :=
  ⟨_, rfl, rfl,
   (Find_channels (globLib id) (some sampleBucket) "/usr/bin/*"
     [Label.spawn, Label.forEach, Label.recv 0, Label.compute 0] _ rfl).2.2.1 0 _ rfl⟩

end Grapple
